import Mathlib

/-!
Verification development for the UW-ASIC analog-circuit optimizer core.

Shallow embedding conventions:
- `f64` values are modeled as exact rationals (`ℚ`); floating-point rounding is
  not modeled.  `f64::powf` is abstracted as an explicit function argument
  `powFn : ℚ → ℚ → ℚ` wherever it is used, so that results do not depend on a
  particular model of real exponentiation.
- fallible Rust code returns `Except`/`Option`; Rust runtime panics (slice
  index out of bounds, integer underflow) are modeled as a distinguished
  `panic` outcome, separate from `Err` return values.
- `u16` casts (`idx as u16`) are modeled as `% 65536` at the cast sites.
- Unicode classification (`char::is_alphanumeric`, `char::is_whitespace`) is
  modeled by the corresponding ASCII predicates.
-/

namespace UWASIC

/-- Fixed evaluation-stack size of the expression VM
(`let mut stack = [0.0f64; 32]` in `CompiledExpression::evaluate`). -/
def STACK_CAP : Nat := 32

/-- Result of parsing a string as an `f64` (`str::parse::<f64>`): a finite
value, an infinity, or a NaN.  The sign of a non-finite value is irrelevant to
the embedded code (only `is_finite` is consulted), so it is not recorded. -/
inductive RustF64 where
  | fin (q : ℚ)
  | infVal
  | nanVal
deriving DecidableEq

/-- Numeric value of a digit list (most significant first). -/
def digitsVal (s : List Char) : ℚ :=
  s.foldl (fun acc c => 10 * acc + (c.toNat - '0'.toNat : ℕ)) 0

/-- Parse the significand part of an `f64` literal:
`Digits '.'? Digits? | '.' Digits` (Rust `f64::from_str` grammar). -/
def parseSig (s : List Char) : Option ℚ :=
  let intPart := s.takeWhile Char.isDigit
  let rest := s.dropWhile Char.isDigit
  match rest with
  | [] => if intPart = [] then none else some (digitsVal intPart)
  | '.' :: frac =>
      if frac.all Char.isDigit ∧ (intPart ≠ [] ∨ frac ≠ []) then
        some (digitsVal intPart + digitsVal frac / (10 : ℚ) ^ frac.length)
      else none
  | _ => none

/-- Parse the optional exponent part: empty, or `('e'|'E') ['+'|'-'] Digits`. -/
def parseExp (s : List Char) : Option ℤ :=
  match s with
  | [] => some 0
  | _ :: rest =>
      let (sgn, digs) : ℤ × List Char :=
        match rest with
        | '+' :: ds => (1, ds)
        | '-' :: ds => (-1, ds)
        | ds => (1, ds)
      if digs ≠ [] ∧ digs.all Char.isDigit then
        some (sgn * (digitsVal digs).num)
      else none

/-- Model of Rust `str::parse::<f64>()` restricted to exact decimal values:
optional sign, then `inf`/`infinity`/`nan` (case-insensitive) or a decimal
significand with optional integer exponent. -/
def rustParseF64 (s : List Char) : Option RustF64 :=
  let (sgn, body) : ℚ × List Char :=
    match s with
    | '+' :: r => (1, r)
    | '-' :: r => (-1, r)
    | r => (1, r)
  let low := body.map Char.toLower
  if low = "inf".toList ∨ low = "infinity".toList then some .infVal
  else if low = "nan".toList then some .nanVal
  else
    let mantPart := body.takeWhile (fun c => c ≠ 'e' ∧ c ≠ 'E')
    let expPart := body.dropWhile (fun c => c ≠ 'e' ∧ c ≠ 'E')
    match parseSig mantPart, parseExp expPart with
    | some m, some ex => some (.fin (sgn * m * (10 : ℚ) ^ ex))
    | _, _ => none

/-- Bytecode instruction of the expression VM (Rust `enum OpCode`).  The `u16`
operand is modeled as a natural; the narrowing cast is applied at the
construction sites. -/
inductive OpCode where
  | loadParam (idx : Nat)
  | loadConst (idx : Nat)
  | add
  | sub
  | mul
  | div
  | pow
deriving DecidableEq

/-- Compiled expression: instruction list, constant pool, parameter arity
(`param_count : u16`). -/
structure CompiledExpression where
  instructions : List OpCode
  constants : List ℚ
  paramCount : Nat
deriving DecidableEq

/-- Outcome of `CompiledExpression::evaluate`: an `Ok` value, an `Err` with the
static message used by the source, or a runtime panic (modeling the slice
index-out-of-bounds aborts the Rust code can hit). -/
inductive EvalResult where
  | ok (v : ℚ)
  | err (msg : String)
  | panic (msg : String)
deriving DecidableEq

/-- Internal VM fault: an `Err` return or a panic. -/
inductive VmErr where
  | err (msg : String)
  | panic (msg : String)
deriving DecidableEq

/-- Push a value: `stack[sp] = v; sp += 1`.  Writing at `sp = 32` is an
out-of-bounds panic on the fixed `[f64; 32]` array. -/
def pushV (stack : List ℚ) (v : ℚ) : Except VmErr (List ℚ) :=
  if stack.length < STACK_CAP then .ok (v :: stack) else
    .error (.panic "stack index out of bounds")

/-- Pop two operands and push the image under `f`: `sp -= 1;
stack[sp-1] = f(stack[sp-1], stack[sp])`.  Fewer than two stacked values is an
index panic (after `usize` underflow of `sp`). -/
def binApp (stack : List ℚ) (f : ℚ → ℚ → Except VmErr ℚ) : Except VmErr (List ℚ) :=
  match stack with
  | b :: a :: rest => (f a b).map (· :: rest)
  | _ => .error (.panic "operand stack underflow")

/-- One step of the VM dispatch loop of `CompiledExpression::evaluate`. -/
def stepInst (powFn : ℚ → ℚ → ℚ) (constants params : List ℚ) :
    OpCode → List ℚ → Except VmErr (List ℚ)
  | .loadParam i, stack =>
      match params.get? i with
      | some v => pushV stack v
      | none => .error (.panic "parameter index out of bounds")
  | .loadConst i, stack =>
      match constants.get? i with
      | some v => pushV stack v
      | none => .error (.panic "constant index out of bounds")
  | .add, stack => binApp stack (fun a b => .ok (a + b))
  | .sub, stack => binApp stack (fun a b => .ok (a - b))
  | .mul, stack => binApp stack (fun a b => .ok (a * b))
  | .div, stack => binApp stack (fun a b =>
      if b = 0 then .error (.err "Division by zero") else .ok (a / b))
  | .pow, stack => binApp stack (fun a b => .ok (powFn a b))

/-- The VM dispatch loop (`for &inst in &self.instructions`). -/
def runInsts (powFn : ℚ → ℚ → ℚ) (constants params : List ℚ) :
    List OpCode → List ℚ → Except VmErr (List ℚ)
  | [], stack => .ok stack
  | inst :: rest, stack => do
      let stack' ← stepInst powFn constants params inst stack
      runInsts powFn constants params rest stack'

/-- Model of `CompiledExpression::evaluate`. -/
def CompiledExpression.evaluate (powFn : ℚ → ℚ → ℚ) (c : CompiledExpression)
    (params : List ℚ) : EvalResult :=
  if params.length ≠ c.paramCount then .err "Parameter count mismatch"
  else
    match runInsts powFn c.constants params c.instructions [] with
    | .error (.err m) => .err m
    | .error (.panic m) => .panic m
    | .ok [v] => .ok v
    | .ok _ => .err "Invalid expression"

/-- Compiler state: the instruction list and constant pool being built
(Rust `struct Compiler`). -/
structure CState where
  instructions : List OpCode
  constants : List ℚ
deriving DecidableEq

/-- Model of `Iterator::position`: index of the first element satisfying `p`. -/
def position {α : Type} (p : α → Bool) : List α → Option Nat
  | [] => none
  | a :: l => if p a then some 0 else (position p l).map (· + 1)

/-- Model of `Compiler::add_const`: reuse an existing pool slot holding an
equal value, else append. -/
def add_const (st : CState) (val : ℚ) : CState × Nat :=
  match position (fun v => v = val) st.constants with
  | some i => (st, i)
  | none => ({ st with constants := st.constants ++ [val] }, st.constants.length)

/-- Scan from index `i-1` down to `0` for an operator at parenthesis depth 0
(the loop body of Rust `find_op`). -/
def findOpFrom (s : List Char) (ops : List Char) : Nat → ℤ → Option Nat
  | 0, _ => none
  | i + 1, depth =>
      let c := s.getD i ' '
      if c = ')' then findOpFrom s ops i (depth + 1)
      else if c = '(' then findOpFrom s ops i (depth - 1)
      else if depth = 0 ∧ c ∈ ops then some i
      else findOpFrom s ops i depth

/-- Model of `find_op`: rightmost occurrence of one of `ops` at depth 0. -/
def find_op (s : List Char) (ops : List Char) : Option Nat :=
  findOpFrom s ops s.length 0

/-- Model of `is_balanced`. -/
def is_balanced : List Char → ℤ → Bool
  | [], depth => depth = 0
  | c :: rest, depth =>
      if c = '(' then is_balanced rest (depth + 1)
      else if c = ')' then
        if depth - 1 < 0 then false else is_balanced rest (depth - 1)
      else is_balanced rest depth

/-- ASCII model of Rust `char::is_alphanumeric() || c == '_' || c == '.'`. -/
def atomCharOk (c : Char) : Bool := c.isAlphanum || c = '_' || c = '.'

/-- The recursive-descent compiler, fueled.  Levels: 3 = `parse_additive`,
2 = `parse_multiplicative`, 1 = `parse_power`, other = `parse_atom`.
`parse_expr` is level 3.  Fuel decreases on every call; `compile` supplies
enough fuel for the input length, so the `fuel exhausted` branch is
unreachable from `compile`. -/
def parseLvl (ps : List String) : Nat → Nat → CState → List Char → Except String CState
  | 0, _, _, _ => .error "fuel exhausted"
  | fuel + 1, 3, st, s =>
      match find_op s ['+', '-'] with
      | some pos => do
          let st1 ← parseLvl ps fuel 3 st (s.take pos)
          let st2 ← parseLvl ps fuel 2 st1 (s.drop (pos + 1))
          pure { st2 with instructions := st2.instructions ++
            [if s.getD pos ' ' = '+' then OpCode.add else OpCode.sub] }
      | none => parseLvl ps fuel 2 st s
  | fuel + 1, 2, st, s =>
      match find_op s ['*', '/'] with
      | some pos => do
          let st1 ← parseLvl ps fuel 2 st (s.take pos)
          let st2 ← parseLvl ps fuel 1 st1 (s.drop (pos + 1))
          pure { st2 with instructions := st2.instructions ++
            [if s.getD pos ' ' = '*' then OpCode.mul else OpCode.div] }
      | none => parseLvl ps fuel 1 st s
  | fuel + 1, 1, st, s =>
      match find_op s ['^'] with
      | some pos => do
          let st1 ← parseLvl ps fuel 0 st (s.take pos)
          let st2 ← parseLvl ps fuel 0 st1 (s.drop (pos + 1))
          pure { st2 with instructions := st2.instructions ++ [OpCode.pow] }
      | none => parseLvl ps fuel 0 st s
  | fuel + 1, _, st, s =>
      if s = [] then .error "Empty sub-expression"
      else if s.headD ' ' = '(' then
        if s.getLast? = some ')' then
          let inner := (s.drop 1).dropLast
          if is_balanced inner 0 then parseLvl ps fuel 3 st inner
          else .error "Unbalanced parentheses"
        else .error "Unmatched parentheses"
      else if ¬ s.all atomCharOk then .error "Invalid characters"
      else
        match rustParseF64 s with
        | some (.fin q) =>
            let (st1, idx) := add_const st q
            .ok { st1 with instructions := st1.instructions ++ [OpCode.loadConst (idx % 65536)] }
        | some _ => .error "Number is not finite"
        | none =>
            match position (fun p => p.data = s) ps with
            | some idx =>
                .ok { st with instructions := st.instructions ++ [OpCode.loadParam (idx % 65536)] }
            | none => .error "Unknown identifier"

/-- Fuel budget that always suffices for `parseLvl` on an input of length `n`. -/
def parseFuel (n : Nat) : Nat := 4 * (n + 1)

/-- Model of `Compiler::compile` (whitespace stripped, then `parse_expr`). -/
def compile (ps : List String) (expr : List Char) : Except String CompiledExpression :=
  if expr = [] then .error "Expression cannot be empty"
  else
    let cleaned := expr.filter (fun c => ¬ c.isWhitespace)
    if cleaned = [] then .error "Expression contains only whitespace"
    else do
      let st ← parseLvl ps (parseFuel cleaned.length) 3 ⟨[], []⟩ cleaned
      pure ⟨st.instructions, st.constants, ps.length % 65536⟩

/-- Compile then evaluate, for concrete end-to-end statements. -/
def compileEval (powFn : ℚ → ℚ → ℚ) (ps : List String) (expr : List Char)
    (params : List ℚ) : EvalResult :=
  match compile ps expr with
  | .ok c => c.evaluate powFn params
  | .error m => .err ("compile: " ++ m)

/-- Integer-exponent power function: exact model of `f64::powf` on the inputs
the concrete scenarios use (integral exponents). -/
def qpowZ (a b : ℚ) : ℚ := if b.den = 1 then a ^ b.num else 0

/-- Modelled from the spec: the abstract syntax tree of the expression grammar
of §4.1 (additive < multiplicative < power < atom). -/
inductive Expr where
  | num (q : ℚ)
  | pvar (i : Nat)
  | add (l r : Expr)
  | sub (l r : Expr)
  | mul (l r : Expr)
  | div (l r : Expr)
  | pow (l r : Expr)
deriving DecidableEq

/-- Modelled from the spec: reference recursive-descent parser producing a
tree, with the same rightmost-operator splits as the compiler. -/
def refParseLvl (ps : List String) : Nat → Nat → List Char → Except String Expr
  | 0, _, _ => .error "fuel exhausted"
  | fuel + 1, 3, s =>
      match find_op s ['+', '-'] with
      | some pos => do
          let l ← refParseLvl ps fuel 3 (s.take pos)
          let r ← refParseLvl ps fuel 2 (s.drop (pos + 1))
          pure (if s.getD pos ' ' = '+' then Expr.add l r else Expr.sub l r)
      | none => refParseLvl ps fuel 2 s
  | fuel + 1, 2, s =>
      match find_op s ['*', '/'] with
      | some pos => do
          let l ← refParseLvl ps fuel 2 (s.take pos)
          let r ← refParseLvl ps fuel 1 (s.drop (pos + 1))
          pure (if s.getD pos ' ' = '*' then Expr.mul l r else Expr.div l r)
      | none => refParseLvl ps fuel 1 s
  | fuel + 1, 1, s =>
      match find_op s ['^'] with
      | some pos => do
          let l ← refParseLvl ps fuel 0 (s.take pos)
          let r ← refParseLvl ps fuel 0 (s.drop (pos + 1))
          pure (Expr.pow l r)
      | none => refParseLvl ps fuel 0 s
  | fuel + 1, _, s =>
      if s = [] then .error "Empty sub-expression"
      else if s.headD ' ' = '(' then
        if s.getLast? = some ')' then
          let inner := (s.drop 1).dropLast
          if is_balanced inner 0 then refParseLvl ps fuel 3 inner
          else .error "Unbalanced parentheses"
        else .error "Unmatched parentheses"
      else if ¬ s.all atomCharOk then .error "Invalid characters"
      else
        match rustParseF64 s with
        | some (.fin q) => .ok (Expr.num q)
        | some _ => .error "Number is not finite"
        | none =>
            match position (fun p => p.data = s) ps with
            | some idx => .ok (Expr.pvar idx)
            | none => .error "Unknown identifier"

/-- Modelled from the spec: reference entry point mirroring `compile`. -/
def refParse (ps : List String) (expr : List Char) : Except String Expr :=
  if expr = [] then .error "Expression cannot be empty"
  else
    let cleaned := expr.filter (fun c => ¬ c.isWhitespace)
    if cleaned = [] then .error "Expression contains only whitespace"
    else refParseLvl ps (parseFuel cleaned.length) 3 cleaned

/-- Modelled from the spec: the double-precision reference tree evaluator
(left subtree first, division by zero fails). -/
def evalTree (powFn : ℚ → ℚ → ℚ) (params : List ℚ) : Expr → Except String ℚ
  | .num q => .ok q
  | .pvar i =>
      match params.get? i with
      | some v => .ok v
      | none => .error "unknown parameter index"
  | .add l r => do
      let a ← evalTree powFn params l
      let b ← evalTree powFn params r
      pure (a + b)
  | .sub l r => do
      let a ← evalTree powFn params l
      let b ← evalTree powFn params r
      pure (a - b)
  | .mul l r => do
      let a ← evalTree powFn params l
      let b ← evalTree powFn params r
      pure (a * b)
  | .div l r => do
      let a ← evalTree powFn params l
      let b ← evalTree powFn params r
      if b = 0 then .error "Division by zero" else pure (a / b)
  | .pow l r => do
      let a ← evalTree powFn params l
      let b ← evalTree powFn params r
      pure (powFn a b)

/-- Maximum evaluation-stack depth needed by the VM code of a tree. -/
def maxDepth : Expr → Nat
  | .num _ => 1
  | .pvar _ => 1
  | .add l r => max (maxDepth l) (maxDepth r + 1)
  | .sub l r => max (maxDepth l) (maxDepth r + 1)
  | .mul l r => max (maxDepth l) (maxDepth r + 1)
  | .div l r => max (maxDepth l) (maxDepth r + 1)
  | .pow l r => max (maxDepth l) (maxDepth r + 1)

/-- All parameter indices of a tree are below `n`. -/
def varsBelow : Expr → Nat → Prop
  | .num _, _ => True
  | .pvar i, n => i < n
  | .add l r, n => varsBelow l n ∧ varsBelow r n
  | .sub l r, n => varsBelow l n ∧ varsBelow r n
  | .mul l r, n => varsBelow l n ∧ varsBelow r n
  | .div l r, n => varsBelow l n ∧ varsBelow r n
  | .pow l r, n => varsBelow l n ∧ varsBelow r n

/-- Lift a reference-evaluator outcome to a VM outcome. -/
def toER : Except String ℚ → EvalResult
  | .ok v => .ok v
  | .error m => .err m

/-- Nested expression `1+(1+(…(1)…))` with `n` parenthesized levels; its VM
stack depth is `n + 1`. -/
def deepExpr : Nat → List Char
  | 0 => ['1']
  | n + 1 => '1' :: '+' :: '(' :: (deepExpr n ++ [')'])

/-- Compiled form of `(a+b)*c - 2^3` over parameters `a, b, c`. -/
def cexpr1 : CompiledExpression :=
  ⟨[.loadParam 0, .loadParam 1, .add, .loadParam 2, .mul,
    .loadConst 0, .loadConst 1, .pow, .sub], [2, 3], 3⟩

/-- Compiled form of `a/0` over parameter `a`. -/
def cdiv : CompiledExpression := ⟨[.loadParam 0, .loadConst 0, .div], [0], 1⟩

/-- Decidable equality for `Except` outcomes. -/
instance {α β : Type} [DecidableEq α] [DecidableEq β] (a b : Except α β) :
    Decidable (a = b) :=
  match a, b with
  | .ok x, .ok y => if h : x = y then isTrue (by rw [h]) else isFalse (by simp [h])
  | .error x, .error y => if h : x = y then isTrue (by rw [h]) else isFalse (by simp [h])
  | .ok _, .error _ => isFalse (by simp)
  | .error _, .ok _ => isFalse (by simp)

/-- Semantic contract of a compiled code fragment `Δ` against a tree `a`,
relative to the constant pool `pool` existing when `Δ` was emitted: with any
pool extension, on any stack leaving enough room for `maxDepth a`, running `Δ`
pushes exactly the reference value of `a` (or faults with the same `Err`). -/
def CodeEval (pool : List ℚ) (Δ : List OpCode) (a : Expr) (nps : Nat) : Prop :=
  ∀ (powFn : ℚ → ℚ → ℚ) (params : List ℚ), nps ≤ params.length →
  ∀ (ext stack : List ℚ), stack.length + maxDepth a ≤ STACK_CAP →
    runInsts powFn (pool ++ ext) params Δ stack =
      match evalTree powFn params a with
      | .ok v => .ok (v :: stack)
      | .error m => .error (.err m)

/-- Everything `parseLvl` guarantees about a successful parse, relative to the
entry state: appended instructions satisfying `CodeEval` for the reference
tree, append-only constant-pool growth bounded by the input length, and
in-range parameter references. -/
def POut (ps : List String) (st : CState) (s : List Char) (st' : CState) (a : Expr) : Prop :=
  (∃ Δ, st'.instructions = st.instructions ++ Δ ∧ CodeEval st'.constants Δ a ps.length)
  ∧ (∃ t, st'.constants = st.constants ++ t ∧ t.length ≤ s.length)
  ∧ varsBelow a ps.length

/-! Feasibility projection (`CircuitProblem::apply_constraints`), modeled for
both trees: `src/src/optimization/problem.rs` (batch evaluation, single-entry
cache, satisfied-branch clamping) and `src/src/optimizer/problem.rs`
(sequential evaluation, no cache, satisfied targets untouched). -/

/-- Rust `enum RelationshipType`. -/
inductive RelationshipType where
  | equals
  | greaterThan
  | lessThan
  | greaterThanOrEqual
  | lessThanOrEqual
deriving DecidableEq

/-- Per-constraint data as prepared by `CircuitProblem::new`: resolved target
index, resolved source indices, relationship, compiled expression. -/
structure ConstraintData where
  relationship : RelationshipType
  target_idx : Nat
  source_indices : List Nat
  compiled : Option CompiledExpression
deriving DecidableEq

/-- Sky130 grid size: `5nm` (`const SKY130_GRID_SIZE: f64 = 0.005e-6`). -/
def SKY130_GRID_SIZE : ℚ := 5 / 10 ^ 9

/-- `const SKY130_GRID_INV: f64 = 1.0 / SKY130_GRID_SIZE`. -/
def SKY130_GRID_INV : ℚ := 1 / SKY130_GRID_SIZE

/-- Rust `f64::round`: nearest integer, ties away from zero. -/
def rustRoundZ (x : ℚ) : ℤ :=
  if 0 ≤ x then ⌊x + 1 / 2⌋ else -⌊-x + 1 / 2⌋

/-- Rust `f64::round` as a rational-valued function. -/
def rustRound (x : ℚ) : ℚ := (rustRoundZ x : ℤ)

/-- Rust `f64::clamp(lo, hi)` (the source always calls it with `lo ≤ hi`). -/
def rustClamp (x lo hi : ℚ) : ℚ :=
  if x < lo then lo else if x > hi then hi else x

/-- Grid rounding of the optimization tree:
`(*param * SKY130_GRID_INV).round() * SKY130_GRID_SIZE`. -/
def gridRoundA (x : ℚ) : ℚ := rustRound (x * SKY130_GRID_INV) * SKY130_GRID_SIZE

/-- Grid rounding of the optimizer tree (`round_to_sky130_precision`):
`(value / GRID_SIZE).round() * GRID_SIZE`. -/
def round_to_sky130_precision (x : ℚ) : ℚ :=
  rustRound (x / SKY130_GRID_SIZE) * SKY130_GRID_SIZE

/-- Unwrap an optional value or fail with the given message (used to model
Rust index panics and missing-compilation errors as `Except` faults). -/
def okOr {α : Type} (o : Option α) (msg : String) : Except String α :=
  match o with
  | some v => .ok v
  | none => .error msg

/-- Collect `params[idx]` for each source index (`none` models the Rust index
panic when an index is out of range). -/
def gatherSources (params : List ℚ) : List Nat → Option (List ℚ)
  | [] => some []
  | i :: rest => do
      let v ← params.get? i
      let vs ← gatherSources params rest
      pure (v :: vs)

/-- Evaluate one constraint's compiled expression on the current params.
`Err` strings prefixed `panic: ` model Rust panics (merged into the error
monad; none of the settled claims distinguishes them here). -/
def evalConstraint (powFn : ℚ → ℚ → ℚ) (params : List ℚ) (c : ConstraintData) :
    Except String ℚ := do
  let srcs ← okOr (gatherSources params c.source_indices) "panic: index out of bounds"
  let expr ← okOr c.compiled "Constraint not compiled"
  match expr.evaluate powFn srcs with
  | .ok v => Except.ok v
  | .err m => Except.error m
  | .panic m => Except.error ("panic: " ++ m)

/-- Model of `CircuitProblem::evaluate_all_constraints` (optimization tree):
evaluate every constraint against the incoming vector. -/
def evaluate_all_constraints (powFn : ℚ → ℚ → ℚ) :
    List ConstraintData → List ℚ → Except String (List ℚ)
  | [], _ => .ok []
  | c :: rest, params => do
      let r ← evalConstraint powFn params c
      let rs ← evaluate_all_constraints powFn rest params
      pure (r :: rs)

/-- Key of the single-entry constraint cache: the source-only parameter
subset, in index order.  The source hashes these values with `DefaultHasher`;
the model idealizes the hash as the hashed data itself (collision-free). -/
def sourceKey (cs : List ConstraintData) (params : List ℚ) : List ℚ :=
  (List.range params.length).filterMap fun i =>
    if cs.any (fun c => c.source_indices.contains i) then params.get? i else none

/-- Apply the batch constraint results to the parameter vector (the
`for (constraint, &computed)` loop of the optimization tree).  Note the
already-satisfied catchall branch still clamps the target to its bounds. -/
def applyResultsA (bounds : List (ℚ × ℚ)) :
    List (ConstraintData × ℚ) → List ℚ → Except String (List ℚ)
  | [], params => .ok params
  | (c, computed) :: rest, params => do
      let b ← okOr (bounds.get? c.target_idx) "panic: index out of bounds"
      let current ← okOr (params.get? c.target_idx) "panic: index out of bounds"
      let newVal := rustClamp
        (match c.relationship with
          | .equals => computed
          | .greaterThanOrEqual => if current < computed then computed else current
          | .lessThanOrEqual => if current > computed then computed else current
          | .greaterThan => if current ≤ computed then computed + 1 / 1000000 else current
          | .lessThan => if current ≥ computed then computed - 1 / 1000000 else current)
        b.1 b.2
      applyResultsA bounds rest (params.set c.target_idx newVal)

/-- Model of `apply_constraints` of `src/src/optimization/problem.rs`: fast
path (grid rounding only) for the empty constraint set, otherwise cached batch
evaluation, constraint application, and grid rounding.  The cache is explicit
state; note a cache hit steals the entry (`cache.take()`), leaving it empty. -/
def applyConstraintsA (powFn : ℚ → ℚ → ℚ) (bounds : List (ℚ × ℚ))
    (cs : List ConstraintData) (cache : Option (List ℚ × List ℚ))
    (params : List ℚ) : Except String (Option (List ℚ × List ℚ) × List ℚ) :=
  if cs = [] then .ok (cache, params.map gridRoundA)
  else
    match cache with
    | some (ck, cr) =>
        if ck = sourceKey cs params then do
          let ps ← applyResultsA bounds (cs.zip cr) params
          pure (none, ps.map gridRoundA)
        else do
          let results ← evaluate_all_constraints powFn cs params
          let ps ← applyResultsA bounds (cs.zip results) params
          pure (some (sourceKey cs params, results), ps.map gridRoundA)
    | none => do
        let results ← evaluate_all_constraints powFn cs params
        let ps ← applyResultsA bounds (cs.zip results) params
        pure (some (sourceKey cs params, results), ps.map gridRoundA)

/-- One constraint step of `apply_constraints` of
`src/src/optimizer/problem.rs`: evaluate against the current vector, update
only when the relationship is violated (satisfied targets stay untouched). -/
def applyOneB (powFn : ℚ → ℚ → ℚ) (bounds : List (ℚ × ℚ))
    (params : List ℚ) (c : ConstraintData) : Except String (List ℚ) := do
  let computed ← evalConstraint powFn params c
  let b ← okOr (bounds.get? c.target_idx) "panic: index out of bounds"
  let current ← okOr (params.get? c.target_idx) "panic: index out of bounds"
  match c.relationship with
  | .equals => pure (params.set c.target_idx (rustClamp computed b.1 b.2))
  | .greaterThanOrEqual =>
      if current < computed then
        pure (params.set c.target_idx (rustClamp computed b.1 b.2))
      else pure params
  | .lessThanOrEqual =>
      if current > computed then
        pure (params.set c.target_idx (rustClamp computed b.1 b.2))
      else pure params
  | .greaterThan =>
      if current ≤ computed then
        pure (params.set c.target_idx (rustClamp (computed + 1 / 1000000) b.1 b.2))
      else pure params
  | .lessThan =>
      if current ≥ computed then
        pure (params.set c.target_idx (rustClamp (computed - 1 / 1000000) b.1 b.2))
      else pure params

/-- Model of `apply_constraints` of `src/src/optimizer/problem.rs`. -/
def applyConstraintsB (powFn : ℚ → ℚ → ℚ) (bounds : List (ℚ × ℚ))
    (cs : List ConstraintData) (params : List ℚ) : Except String (List ℚ) := do
  let ps ← cs.foldlM (applyOneB powFn bounds) params
  pure (ps.map round_to_sky130_precision)

/-- Condition for the C9 equivalence: no constraint's source parameter is the
target of any constraint (no chaining). -/
def noSourceIsTarget (cs : List ConstraintData) : Prop :=
  ∀ c ∈ cs, ∀ c2 ∈ cs, ∀ i ∈ c2.source_indices, i ≠ c.target_idx

instance (cs : List ConstraintData) : Decidable (noSourceIsTarget cs) := by
  unfold noSourceIsTarget
  exact List.decidableBAll _ cs

/-- Concrete constraint list: `p1 == 3 * p0` (compiled form of `a*3`). -/
def csEq : List ConstraintData :=
  [⟨.equals, 1, [0], some ⟨[.loadParam 0, .loadConst 0, .mul], [3], 1⟩⟩]

/-- Concrete constraint list: `p1 >= p0` (compiled identity expression). -/
def csGe : List ConstraintData :=
  [⟨.greaterThanOrEqual, 1, [0], some ⟨[.loadParam 0], [], 1⟩⟩]

/-! Metric extraction and target cost (C3): `CircuitProblem::extract_metrics`
of `src/src/optimization/problem.rs`, `Target::compute_cost` of
`src/src/types.rs`, and the per-target error of `CircuitProblem::cost`. -/

/-- Rust `enum TargetMode` (`Min`, `Max`, `Target`). -/
inductive TargetMode where
  | min
  | max
  | target
deriving DecidableEq

/-- Rust `struct Target`. -/
structure Target where
  metric : String
  value : ℚ
  weight : ℚ
  mode : TargetMode
  unit : String
deriving DecidableEq

/-- Model of `Target::compute_cost` (`src/src/types.rs:130-149`). -/
def Target.compute_cost (t : Target) (achieved : ℚ) : ℚ :=
  (match t.mode with
    | .min => if achieved < t.value then 0 else achieved - t.value
    | .max => if achieved > t.value then 0 else t.value - achieved
    | .target => |achieved - t.value|) * t.weight

/-- Per-target error term of `CircuitProblem::cost`
(`src/src/optimization/problem.rs:566-576`): the guarded match arms. -/
def costContribution (t : Target) (value : ℚ) : ℚ :=
  (match t.mode with
    | .min => if value ≥ t.value then value - t.value else 0
    | .max => if value ≤ t.value then t.value - value else 0
    | .target => |value - t.value|) * t.weight

/-- Is `pat` an initial segment of `l` (model of byte-wise prefix match). -/
def isPrefOf : List Char → List Char → Bool
  | [], _ => true
  | _ :: _, [] => false
  | p :: ps, h :: hs => p = h && isPrefOf ps hs

/-- Model of Rust `str::contains` (substring search). -/
def containsSub (hay pat : List Char) : Bool :=
  (List.range (hay.length + 1)).any fun k => isPrefOf pat (hay.drop k)

/-- Model of Rust `str::trim` (ASCII whitespace). -/
def rustTrim (l : List Char) : List Char :=
  ((l.dropWhile Char.isWhitespace).reverse.dropWhile Char.isWhitespace).reverse

/-- Value a single captured output line yields for a target, if any: the body
of the scan loop of `extract_metrics` — the line must contain `=`, the
lowercased metric name and `_val`; the first whitespace-delimited token after
the first `=` must parse as a finite `f64`.  (A token parsing to `inf`/`nan`
would be stored by Rust; such non-finite stored values are outside this
model and the claims it settles.) -/
def lineMetric (line : List Char) (t : Target) : Option ℚ :=
  let trimmed := rustTrim line
  if containsSub trimmed ['='] = false then none
  else
    let metricLower := t.metric.data.map Char.toLower
    if containsSub trimmed metricLower ∧ containsSub trimmed ['_', 'v', 'a', 'l'] then
      match position (fun x => x = '=') trimmed with
      | some eqPos =>
          let tok := ((trimmed.drop (eqPos + 1)).dropWhile Char.isWhitespace).takeWhile
            (fun c => ¬ c.isWhitespace)
          match rustParseF64 tok with
          | some (.fin q) => some q
          | _ => none
      | none => none
    else none

/-- Scan all captured lines for a target; a later match overwrites an earlier
one (`metric_values[i] = Some(value)` in line order). -/
def scanValue (lines : List (List Char)) (t : Target) : Option ℚ :=
  lines.foldl
    (fun acc line =>
      match lineMetric line t with
      | some q => some q
      | none => acc)
    none

/-- Penalty substituted for a missing measurement
(`src/src/optimization/problem.rs:354-361`). -/
def penaltyValue (t : Target) : ℚ :=
  match t.mode with
  | .min => t.value * (1 / 10)
  | .max => t.value * 10
  | .target => t.value * 2

/-- The metric value `extract_metrics` reports for one target. -/
def extract_metric_value (lines : List (List Char)) (t : Target) : ℚ :=
  (scanValue lines t).getD (penaltyValue t)

/-- A target's metric is absent from the captured simulator output: no line
contains the lowercased metric name. -/
def metricAbsent (lines : List (List Char)) (t : Target) : Prop :=
  ∀ line ∈ lines,
    containsSub (rustTrim line) (t.metric.data.map Char.toLower) = false

instance (lines : List (List Char)) (t : Target) : Decidable (metricAbsent lines t) := by
  unfold metricAbsent
  exact List.decidableBAll _ lines

/-- Concrete `mode=Max, value=60, weight=1` target of the penalty scenario. -/
def tMax : Target := ⟨"gain", 60, 1, .max, ""⟩

/-- Concrete `mode=Min, value=60, weight=1` target. -/
def tMin : Target := ⟨"power", 60, 1, .min, ""⟩

/-! Solver auto-selection (C8): `select_solver` of
`src/src/optimization/solvers/mod.rs` and of `src/src/optimizer/solver/mod.rs`. -/

/-- Which solver `select_solver` returns, with the configured population for
PSO (max-iteration and precision arguments are passed through unchanged and
are irrelevant to the choice). -/
inductive SolverChoice where
  | newton
  | pso (population : Nat)
  | cmaes
deriving DecidableEq

/-- Bound ranges `max - min`. -/
def rangesOf (bounds : List (ℚ × ℚ)) : List ℚ := bounds.map fun b => b.2 - b.1

/-- `avg_range = total_range / num_params` (exact model; the Rust `0/0 = NaN`
case for `num_params = 0` is excluded by the theorems' hypotheses). -/
def avgRange (n : Nat) (bounds : List (ℚ × ℚ)) : ℚ := (rangesOf bounds).sum / n

/-- Exact translation of the f64 comparison
`variance.sqrt() / mean > c` for the coefficient of variation, `c > 0`
(`0.0` when fewer than two ranges): for `mean > 0` it is `variance > c²·mean²`;
for `mean = 0` the quotient is `+inf` when `variance > 0` (true) and NaN when
`variance = 0` (false); for `mean < 0` the quotient is nonpositive (false). -/
def cvGt (ranges : List ℚ) (c : ℚ) : Prop :=
  if 1 < ranges.length then
    let mean : ℚ := ranges.sum / (ranges.length : ℚ)
    let variance : ℚ := (ranges.map (fun r => (r - mean) ^ 2)).sum / (ranges.length : ℚ)
    if 0 < mean then c ^ 2 * mean ^ 2 < variance
    else if mean = 0 then 0 < variance
    else False
  else (0 : ℚ) > c

instance (ranges : List ℚ) (c : ℚ) : Decidable (cvGt ranges c) := by
  unfold cvGt
  split
  · dsimp only
    split
    · exact inferInstance
    · split <;> exact inferInstance
  · exact inferInstance

/-- Exact translation of `variance.sqrt() / mean < c`, `c > 0` (see `cvGt`). -/
def cvLt (ranges : List ℚ) (c : ℚ) : Prop :=
  if 1 < ranges.length then
    let mean : ℚ := ranges.sum / (ranges.length : ℚ)
    let variance : ℚ := (ranges.map (fun r => (r - mean) ^ 2)).sum / (ranges.length : ℚ)
    if 0 < mean then variance < c ^ 2 * mean ^ 2
    else if mean = 0 then False
    else True
  else (0 : ℚ) < c

instance (ranges : List ℚ) (c : ℚ) : Decidable (cvLt ranges c) := by
  unfold cvLt
  split
  · dsimp only
    split
    · exact inferInstance
    · split <;> exact inferInstance
  · exact inferInstance

/-- Model of `select_solver` of `src/src/optimization/solvers/mod.rs`:
match arms in order (Newton for tiny tight problems, PSO up to 8 params,
CMA-ES for large or poorly scaled problems, PSO fallback). -/
def selectSolverA (num_params : Nat) (bounds : List (ℚ × ℚ))
    (has_constraints : Bool) : SolverChoice :=
  if num_params ≤ 2 ∧ avgRange num_params bounds < 1 ∧
      avgRange num_params bounds < 1 / 10 then .newton
  else if num_params ≤ 8 then .pso (min (10 + num_params * 3) 30)
  else if num_params ≥ 9 ∨ cvGt (rangesOf bounds) (3 / 2) then .cmaes
  else .pso 20

/-- Model of `select_solver` of `src/src/optimizer/solver/mod.rs`. -/
def selectSolverB (num_params : Nat) (bounds : List (ℚ × ℚ))
    (has_constraints : Bool) : SolverChoice :=
  if num_params ≤ 3 ∧ avgRange num_params bounds < 1 then .newton
  else if 4 ≤ num_params ∧ num_params ≤ 8 ∧ cvLt (rangesOf bounds) 1 ∧
      has_constraints = false then .pso (15 + num_params * 2)
  else if num_params ≥ 9 ∨ cvGt (rangesOf bounds) 1 then .cmaes
  else if has_constraints then .pso 20
  else .pso 20

/-- Modelled from the spec: the auto-selection table of §4.7.4, read top to
bottom. -/
def selectorTable (num_params : Nat) (bounds : List (ℚ × ℚ)) : SolverChoice :=
  if num_params ≤ 2 ∧ avgRange num_params bounds < 1 / 10 then .newton
  else if num_params ≤ 8 then .pso (min (10 + 3 * num_params) 30)
  else if num_params ≥ 9 ∨ cvGt (rangesOf bounds) (3 / 2) then .cmaes
  else .pso 20

/-! Constraint validation (C6): `detect_cycles` and `validate_constraints` of
`src/src/lib.rs`, with `ParameterConstraint` helpers of `src/src/types.rs`. -/

/-- Rust `struct Parameter`. -/
structure Parameter where
  name : String
  value : ℚ
  min_val : ℚ
  max_val : ℚ
deriving DecidableEq

/-- Rust `struct ParameterConstraint` (the expression string is modeled as a
character list, matching the compiler model). -/
structure ParameterConstraint where
  relationship : RelationshipType
  description : String
  expression : List Char
  target_param : Parameter
  source_params : List Parameter
  compiled : Option CompiledExpression
deriving DecidableEq

/-- Model of `ParameterConstraint::find_target_index`. -/
def find_target_index (c : ParameterConstraint) (params : List Parameter) : Option Nat :=
  position (fun p => p.name = c.target_param.name) params

/-- Model of `ParameterConstraint::find_source_indices`. -/
def find_source_indices (c : ParameterConstraint) (params : List Parameter) : List Nat :=
  c.source_params.filterMap fun sp => position (fun p => p.name = sp.name) params

/-- `graph[i].push(v)` on an adjacency list. -/
def pushAt (g : List (List Nat)) (i v : Nat) : List (List Nat) :=
  g.set i (g.getD i [] ++ [v])

/-- Edges contributed by one constraint: `source → target` for every resolved
source index, skipped entirely when the target is not in the parameter list. -/
def addConstraintEdges (params : List Parameter) (g : List (List Nat))
    (c : ParameterConstraint) : List (List Nat) :=
  match find_target_index c params with
  | some t => (find_source_indices c params).foldl (fun g2 s => pushAt g2 s t) g
  | none => g

/-- The dependency graph built by `detect_cycles`: one vertex per parameter,
adjacency lists of dependent parameter indices. -/
def buildGraph (constraints : List ParameterConstraint) (params : List Parameter) :
    List (List Nat) :=
  constraints.foldl (addConstraintEdges params) (List.replicate params.length [])

/-- The two coloring arrays of the DFS (`visited`, `rec_stack`). -/
structure DfsState where
  visited : List Bool
  rec_stack : List Bool
deriving DecidableEq

/-- Error message of a detected back edge (the source wraps the name in single
quotes; the quoting is omitted in the model). -/
def cycleMsg (name : String) : String :=
  "Cyclic dependency detected involving parameter " ++ name

/-- Placeholder parameter for out-of-range index reads (never reached on the
well-formed graphs `detect_cycles` builds). -/
def defaultParameter : Parameter := ⟨"", 0, 0, 0⟩

/-- The recursive DFS of `detect_cycles`, fueled.  `Sum.inl node` models a
`dfs(node, …)` call (mark `visited` and `rec_stack`, walk the adjacency
list, then clear `rec_stack`); `Sum.inr rest` models the remaining iterations
of the `for &neighbor in &graph[node]` loop.  `none` is fuel exhaustion;
`detect_cycles` supplies fuel proven sufficient. -/
def dfsGo (g : List (List Nat)) (params : List Parameter) :
    Nat → Nat ⊕ (Nat × List Nat) → DfsState → Option (Except String DfsState)
  | 0, _, _ => none
  | fuel + 1, .inl node, st =>
      let st1 : DfsState := ⟨st.visited.set node true, st.rec_stack.set node true⟩
      match dfsGo g params fuel (.inr (node, g.getD node [])) st1 with
      | none => none
      | some (.error m) => some (.error m)
      | some (.ok st2) => some (.ok ⟨st2.visited, st2.rec_stack.set node false⟩)
  | _ + 1, .inr (_, []), st => some (.ok st)
  | fuel + 1, .inr (node, nb :: rest), st =>
      if st.visited.getD nb false = false then
        match dfsGo g params fuel (.inl nb) st with
        | none => none
        | some (.error m) => some (.error m)
        | some (.ok st2) => dfsGo g params fuel (.inr (node, rest)) st2
      else if st.rec_stack.getD nb false = true then
        some (.error (cycleMsg (params.getD nb defaultParameter).name))
      else dfsGo g params fuel (.inr (node, rest)) st

/-- Number of `false` entries (unvisited nodes) in a coloring array. -/
def countFalse : List Bool → Nat
  | [] => 0
  | b :: l => (if b then 0 else 1) + countFalse l

/-- Per-node fuel weight: enough for one `dfs` entry plus its adjacency walk. -/
def dfsK (g : List (List Nat)) : Nat :=
  (g.map List.length).foldr max 0 + 2

/-- Fuel that always suffices for `detect_cycles` (proved). -/
def dfsFuel (g : List (List Nat)) (n : Nat) : Nat := n * dfsK g + n + 1

/-- The `for i in 0..param_count` loop of `detect_cycles`. -/
def detectLoop (g : List (List Nat)) (params : List Parameter) (fuel : Nat) :
    List Nat → DfsState → Except String DfsState
  | [], st => .ok st
  | i :: rest, st =>
      if st.visited.getD i false = false then
        match dfsGo g params fuel (.inl i) st with
        | none => .error "fuel exhausted"
        | some (.error m) => .error m
        | some (.ok st2) => detectLoop g params fuel rest st2
      else detectLoop g params fuel rest st

/-- Model of `detect_cycles` (`src/src/lib.rs:30-83`). -/
def detect_cycles (constraints : List ParameterConstraint) (params : List Parameter) :
    Except String Unit :=
  let g := buildGraph constraints params
  let n := params.length
  match detectLoop g params (dfsFuel g n) (List.range n)
      ⟨List.replicate n false, List.replicate n false⟩ with
  | .ok _ => .ok ()
  | .error m => .error m

/-- Model of `ParameterConstraint::compile` (`src/src/types.rs:249-278`):
skip when already compiled, check source-parameter presence, then compile the
expression against the source names (error messages carry the offending name
without the source's single-quote decoration). -/
def ParameterConstraint.compile (c : ParameterConstraint) (param_names : List String) :
    Except String ParameterConstraint :=
  if c.compiled.isSome then .ok c
  else
    match c.source_params.find? (fun sp => ¬ param_names.contains sp.name) with
    | some sp => .error ("Source parameter " ++ sp.name ++ " not found in parameter list")
    | none =>
        let source_names := c.source_params.map Parameter.name
        match UWASIC.compile source_names c.expression with
        | .ok e => .ok { c with compiled := some e }
        | .error e => .error ("Failed to compile expression for constraint on "
            ++ c.target_param.name ++ ": " ++ e)

/-- Compile every constraint in order, failing at the first error (the source
mutates the slice in place; the model returns the updated list). -/
def compileAllConstraints (names : List String) :
    List ParameterConstraint → Except String (List ParameterConstraint)
  | [] => .ok []
  | c :: rest => do
      let c2 ← c.compile names
      let rest2 ← compileAllConstraints names rest
      pure (c2 :: rest2)

/-- Model of `validate_constraints` (`src/src/lib.rs:86-102`). -/
def validate_constraints (constraints : List ParameterConstraint)
    (params : List Parameter) : Except String (List ParameterConstraint) := do
  let _ ← detect_cycles constraints params
  compileAllConstraints (params.map Parameter.name) constraints

/-- Directed edge of the dependency graph. -/
def Edge (g : List (List Nat)) (u v : Nat) : Prop := v ∈ g.getD u []

/-- Reflexive-transitive reachability along edges. -/
inductive PathG (g : List (List Nat)) : Nat → Nat → Prop where
  | refl (u : Nat) : PathG g u u
  | step {u v w : Nat} : Edge g u v → PathG g v w → PathG g u w

/-- A node lying on a directed cycle: some successor reaches back to it. -/
def onCycle (g : List (List Nat)) (x : Nat) : Prop :=
  ∃ y, Edge g x y ∧ PathG g y x

/-- The graph contains a directed cycle. -/
def hasCycle (g : List (List Nat)) : Prop := ∃ x, onCycle g x

/-! Ghost predicates for the C6 correctness proof of `detect_cycles`. -/

/-- A node is black: visited and off the recursion stack. -/
def blackAt (st : DfsState) (u : Nat) : Prop :=
  st.visited.getD u false = true ∧ st.rec_stack.getD u false = false

/-- Every gray node (on the recursion stack) is visited. -/
def GrayVis (st : DfsState) : Prop :=
  ∀ u, st.rec_stack.getD u false = true → st.visited.getD u false = true

/-- Every gray node has a path to the current node. -/
def GrayInv (g : List (List Nat)) (st : DfsState) (c : Nat) : Prop :=
  ∀ u, st.rec_stack.getD u false = true → PathG g u c

/-- The ghost finish list is reverse-topological: every edge out of a listed
node leads to a strictly earlier entry. -/
def ordOk (g : List (List Nat)) (o : List Nat) : Prop :=
  ∀ o1 u o2, o = o1 ++ u :: o2 → ∀ v, Edge g u v → v ∈ o1

/-- Agreement between a DFS state and the ghost finish list: duplicate-free,
lists exactly the black nodes, reverse-topological. -/
def Wst (g : List (List Nat)) (st : DfsState) (o : List Nat) : Prop :=
  o.Nodup ∧ (∀ u, blackAt st u ↔ u ∈ o) ∧ ordOk g o

/-- Both coloring arrays have length `n`. -/
def StLen (st : DfsState) (n : Nat) : Prop :=
  st.visited.length = n ∧ st.rec_stack.length = n

/-- All edge targets lie below `n`. -/
def edgesBelow (g : List (List Nat)) (n : Nat) : Prop :=
  ∀ u v, Edge g u v → v < n

/-! Solver call-order traces (C2): `NewtonOptimizer::solve`
(`src/src/optimization/solvers/newton.rs`) and `ParticleOptimizer::solve`
(`src/src/optimization/solvers/particle.rs`), instrumented with an event
trace recording every `problem.apply_constraints` and `problem.cost` call.
The abstract `Problem` is modeled by oracles: `costF` (the cost value; the
Err case only truncates a trace and cannot add calls) and `applyF` (the Ok
output of `apply_constraints`).  Random draws (`rng.gen_range`, `rng.gen`)
are an oracle stream `rngF` consumed by counter; the callback is an oracle
`stopF` (`should_stop` per iteration, `on_iteration` assumed Ok). -/

/-- One observable problem call: `apply_constraints` (input and output) or
`cost` (argument). -/
inductive SolverEvent where
  | applyEv (inp out : List ℚ)
  | costEv (arg : List ℚ)
deriving DecidableEq

/-- `clamp_params`: clamp each coordinate to its bound (identical helper in
both solvers); coordinates beyond the bounds list are untouched. -/
def clampVec (bounds : List (ℚ × ℚ)) (v : List ℚ) : List ℚ :=
  (List.zipWith (fun x b => rustClamp x b.1 b.2) v bounds) ++ v.drop bounds.length

/-- `NewtonOptimizer` fields (`new` fixes all but `max_iter`, `precision`). -/
structure NewtonCfg where
  max_iter : Nat
  precision : ℚ
  learning_rate : ℚ
  min_learning_rate : ℚ
  max_learning_rate : ℚ
  armijo_c : ℚ
  backtrack_factor : ℚ
  increase_factor : ℚ

/-- Central-difference gradient loop of `compute_gradient` (`h = 1e-6`):
per index, probe `params[i] ± h` with two unconstrained `cost` calls. -/
def newtonGradientGo (costF : List ℚ → ℚ) (params : List ℚ) :
    List Nat → List SolverEvent × List ℚ
  | [] => ([], [])
  | i :: rest =>
      let h : ℚ := 1 / 10 ^ 6
      let p_plus := params.set i (params.getD i 0 + h)
      let p_minus := params.set i (params.getD i 0 - h)
      let c_plus := costF p_plus
      let c_minus := costF p_minus
      let r := newtonGradientGo costF params rest
      (SolverEvent.costEv p_plus :: SolverEvent.costEv p_minus :: r.1,
        ((c_plus - c_minus) / (2 * (1 / 10 ^ 6))) :: r.2)

/-- Model of `NewtonOptimizer::compute_gradient`. -/
def compute_gradient (costF : List ℚ → ℚ) (params : List ℚ) :
    List SolverEvent × List ℚ :=
  newtonGradientGo costF params (List.range params.length)

/-- Backtracking loop of `line_search`: step, clamp, one unconstrained `cost`
call, Armijo test, backtrack. -/
def line_searchGo (costF : List ℚ → ℚ) (bounds : List (ℚ × ℚ)) (cfg : NewtonCfg)
    (params gradient : List ℚ) (current_cost gnsq : ℚ) :
    Nat → ℚ → List SolverEvent × ℚ
  | 0, alpha => ([], max alpha cfg.min_learning_rate)
  | k + 1, alpha =>
      let new_params := clampVec bounds
        (List.zipWith (fun p gi => p - alpha * gi) params gradient)
      let new_cost := costF new_params
      let tail :=
        if new_cost ≤ current_cost - cfg.armijo_c * alpha * gnsq then
          (([] : List SolverEvent), alpha)
        else
          let alpha2 := alpha * cfg.backtrack_factor
          if alpha2 < cfg.min_learning_rate then
            (([] : List SolverEvent), max alpha2 cfg.min_learning_rate)
          else line_searchGo costF bounds cfg params gradient current_cost gnsq k alpha2
      (SolverEvent.costEv new_params :: tail.1, tail.2)

/-- Model of `NewtonOptimizer::line_search` (up to 10 backtracking steps). -/
def line_search (costF : List ℚ → ℚ) (bounds : List (ℚ × ℚ)) (cfg : NewtonCfg)
    (params gradient : List ℚ) (current_cost : ℚ) : List SolverEvent × ℚ :=
  line_searchGo costF bounds cfg params gradient current_cost
    ((gradient.map (fun gi => gi * gi)).sum) 10 cfg.learning_rate

/-- Main loop of `NewtonOptimizer::solve`: apply constraints, clamp, evaluate,
early returns (callback / converged / stagnated), learning-rate adaptation,
gradient, line search, step.  `prev_cost = none` models `f64::INFINITY`. -/
def newtonLoop (costF : List ℚ → ℚ) (applyF : List ℚ → List ℚ)
    (bounds : List (ℚ × ℚ)) (stopF : Nat → Bool) :
    Nat → Nat → NewtonCfg → List ℚ → Option ℚ → Nat → List SolverEvent
  | 0, _, _, _, _, _ => []
  | k + 1, iter, cfg, params, prev_cost, ci =>
      let pc := applyF params
      let pcl := clampVec bounds pc
      let cost := costF pcl
      let base := [SolverEvent.applyEv params pc, SolverEvent.costEv pcl]
      if stopF iter then base
      else if cost < cfg.precision then base
      else if (match prev_cost with
          | none => false
          | some pv => |pv - cost| < cfg.precision * (1 / 100)) then base
      else
        let costLtPrev : Bool := match prev_cost with
          | none => true
          | some pv => decide (cost < pv)
        let ci2 := if costLtPrev then ci + 1 else 0
        let lr2 := if costLtPrev ∧ 3 ≤ ci2 then
            min (cfg.learning_rate * cfg.increase_factor) cfg.max_learning_rate
          else cfg.learning_rate
        let cfg2 := { cfg with learning_rate := lr2 }
        let gr := compute_gradient costF pcl
        let ls := line_search costF bounds cfg2 pcl gr.2 cost
        let params2 := clampVec bounds
          (List.zipWith (fun p gi => p - ls.2 * gi) pcl gr.2)
        base ++ gr.1 ++ ls.1
          ++ newtonLoop costF applyF bounds stopF k (iter + 1) cfg2 params2 (some cost) ci2

/-- Event trace of `NewtonOptimizer::solve`. -/
def newtonTrace (cfg : NewtonCfg) (costF : List ℚ → ℚ) (applyF : List ℚ → List ℚ)
    (bounds : List (ℚ × ℚ)) (stopF : Nat → Bool) (initial : List ℚ) :
    List SolverEvent :=
  newtonLoop costF applyF bounds stopF cfg.max_iter 0 cfg initial none 0

/-- `ParticleOptimizer` fields. -/
structure PsoCfg where
  max_iter : Nat
  precision : ℚ
  population_size : Nat
  inertia : ℚ
  cognitive : ℚ
  social : ℚ

/-- Draw `m` oracle values starting at counter `ctr`. -/
def drawVec (rngF : Nat → ℚ) : Nat → Nat → List ℚ × Nat
  | 0, ctr => ([], ctr)
  | m + 1, ctr =>
      let r := drawVec rngF m (ctr + 1)
      (rngF ctr :: r.1, r.2)

/-- Draw `count` vectors of `m` oracle values each. -/
def drawMany (rngF : Nat → ℚ) : Nat → Nat → Nat → List (List ℚ) × Nat
  | 0, _, ctr => ([], ctr)
  | count + 1, m, ctr =>
      let v := drawVec rngF m ctr
      let r := drawMany rngF count m v.2
      (v.1 :: r.1, r.2)

/-- Result of the per-iteration particle evaluation loop. -/
structure PsoEvalOut where
  evs : List SolverEvent
  parts : List (List ℚ)
  pbp : List (List ℚ)
  pbc : List (Option ℚ)
  gbi : Nat
  gbc : Option ℚ

/-- The `for p in 0..population_size` evaluation loop of
`ParticleOptimizer::solve`: apply constraints, clamp to bounds, evaluate cost,
update personal and global bests.  `none` costs model `f64::INFINITY`. -/
def psoEvalGo (costF : List ℚ → ℚ) (applyF : List ℚ → List ℚ)
    (bounds : List (ℚ × ℚ)) :
    Nat → List (List ℚ) → List (List ℚ) → List (Option ℚ) → Nat → Option ℚ →
    PsoEvalOut
  | _, [], pbp, pbc, gbi, gbc => ⟨[], [], pbp, pbc, gbi, gbc⟩
  | p, x :: rest, pbp, pbc, gbi, gbc =>
      let out := applyF x
      let xc := clampVec bounds out
      let c := costF xc
      let better : Bool := match pbc.getD p none with
        | none => true
        | some pv => decide (c < pv)
      let pbp2 := if better then pbp.set p xc else pbp
      let pbc2 := if better then pbc.set p (some c) else pbc
      let gbetter : Bool := match gbc with
        | none => true
        | some gv => decide (c < gv)
      let gbi2 := if gbetter then p else gbi
      let gbc2 := if gbetter then some c else gbc
      let r := psoEvalGo costF applyF bounds (p + 1) rest pbp2 pbc2 gbi2 gbc2
      ⟨SolverEvent.applyEv x out :: SolverEvent.costEv xc :: r.evs,
        xc :: r.parts, r.pbp, r.pbc, r.gbi, r.gbc⟩

/-- Velocity/position update of one particle, coordinate by coordinate:
two random draws, PSO velocity equation, velocity clamp to 20 percent of the
range, position step. -/
def psoVelCoord (rngF : Nat → ℚ) (w c1 c2 : ℚ) (bounds : List (ℚ × ℚ))
    (pb gb : List ℚ) : Nat → List ℚ → List ℚ → Nat → List ℚ × List ℚ × Nat
  | i, v :: vs, x :: xsc, ctr =>
      let r1 := rngF ctr
      let r2 := rngF (ctr + 1)
      let vi := w * v + c1 * r1 * (pb.getD i 0 - x) + c2 * r2 * (gb.getD i 0 - x)
      let b := bounds.getD i (0, 0)
      let vmax := (b.2 - b.1) * (2 / 10)
      let vi2 := rustClamp vi (-vmax) vmax
      let r := psoVelCoord rngF w c1 c2 bounds pb gb (i + 1) vs xsc (ctr + 2)
      (vi2 :: r.1, (x + vi2) :: r.2.1, r.2.2)
  | _, _, _, ctr => ([], [], ctr)

/-- Velocity/position update over all particles, then the bounds clamp. -/
def psoVelGo (rngF : Nat → ℚ) (w c1 c2 : ℚ) (bounds : List (ℚ × ℚ))
    (gb : List ℚ) : List (List ℚ × List ℚ × List ℚ) → Nat →
    List (List ℚ) × List (List ℚ) × Nat
  | [], ctr => ([], [], ctr)
  | (x, v, pb) :: rest, ctr =>
      let c := psoVelCoord rngF w c1 c2 bounds pb gb 0 v x ctr
      let x3 := clampVec bounds c.2.1
      let r := psoVelGo rngF w c1 c2 bounds gb rest c.2.2
      (x3 :: r.1, c.1 :: r.2.1, r.2.2)

/-- `prev_global_best` stagnation test; `none` (infinity) never stagnates
(`INFINITY - x` and `NaN` comparisons are false in the source). -/
def stagCheck (prev cur : Option ℚ) (eps : ℚ) : Bool :=
  match prev, cur with
  | some pv, some cv => decide (|pv - cv| < eps)
  | _, _ => false

/-- `global_best_cost < precision` convergence test. -/
def optLt (a : Option ℚ) (b : ℚ) : Bool :=
  match a with
  | none => false
  | some x => decide (x < b)

/-- Main loop of `ParticleOptimizer::solve` (`MAX_STAGNATION = 5`). -/
def psoLoop (costF : List ℚ → ℚ) (applyF : List ℚ → List ℚ)
    (bounds : List (ℚ × ℚ)) (stopF : Nat → Bool) (rngF : Nat → ℚ) (cfg : PsoCfg) :
    Nat → Nat → List (List ℚ) → List (List ℚ) → List (List ℚ) →
    List (Option ℚ) → Nat → Option ℚ → Nat → Nat → List SolverEvent
  | 0, _, _, _, _, _, _, _, _, _ => []
  | k + 1, iter, xs, vs, pbp, pbc, gbi, gbc, stag, ctr =>
      let ev := psoEvalGo costF applyF bounds 0 xs pbp pbc gbi gbc
      if stopF iter then ev.evs
      else if optLt ev.gbc cfg.precision then ev.evs
      else if stagCheck gbc ev.gbc (cfg.precision * (1 / 100)) ∧ 5 ≤ stag + 1 then ev.evs
      else
        let stag2 := if stagCheck gbc ev.gbc (cfg.precision * (1 / 100)) then stag + 1 else 0
        let gb := ev.pbp.getD ev.gbi []
        let upd := psoVelGo rngF cfg.inertia cfg.cognitive cfg.social bounds gb
          (ev.parts.zip (vs.zip ev.pbp)) ctr
        ev.evs ++ psoLoop costF applyF bounds stopF rngF cfg k (iter + 1)
          upd.1 upd.2.1 ev.pbp ev.pbc ev.gbi ev.gbc stag2 upd.2.2

/-- Event trace of `ParticleOptimizer::solve`: particle and velocity
initialization (random draws, first particle is the initial guess), then the
main loop. -/
def psoTrace (cfg : PsoCfg) (costF : List ℚ → ℚ) (applyF : List ℚ → List ℚ)
    (bounds : List (ℚ × ℚ)) (stopF : Nat → Bool) (rngF : Nat → ℚ)
    (initial : List ℚ) : List SolverEvent :=
  let n := initial.length
  let pr := drawMany rngF (cfg.population_size - 1) n 0
  let particles := initial :: pr.1
  let vr := drawMany rngF cfg.population_size n pr.2
  psoLoop costF applyF bounds stopF rngF cfg cfg.max_iter 0 particles vr.1
    particles (List.replicate cfg.population_size none) 0 none 0 vr.2

/-- Amended C2 property: every `cost` call is immediately preceded by an
`apply_constraints` call, and its argument is the bounds clamp of that
output. -/
def costClampAdjacent (bounds : List (ℚ × ℚ)) (t : List SolverEvent) : Prop :=
  ∀ j v, t.get? j = some (SolverEvent.costEv v) →
    ∃ jp inp out, j = jp + 1 ∧ t.get? jp = some (SolverEvent.applyEv inp out)
      ∧ v = clampVec bounds out

/-- Original C2 property, as claimed: every vector handed to `cost` was
first passed through `apply_constraints` (is the output of an earlier
`apply_constraints` call). -/
def costConstrained (t : List SolverEvent) : Prop :=
  ∀ j v, t.get? j = some (SolverEvent.costEv v) →
    ∃ i inp, i < j ∧ t.get? i = some (SolverEvent.applyEv inp v)

/-! CMA-ES trace model (C2): `CMAESOptimizer::solve`
(`src/src/optimization/solvers/cma_es.rs`), instrumented like the Newton and
PSO models.  `StandardNormal` samples come from the oracle stream `rngF`;
the transcendental f64 operations `sqrt`, `ln`, `exp` are oracle functions
`sqrtF`, `lnF`, `expF` (their values only shape the sampled vectors, never
the call order); usize/f64 casts are exact on ℚ. -/

/-- `CMAESOptimizer` fields (`new` fixes `sigma = 0.3`,
`population_size = 0`, meaning auto). -/
structure CmaCfg where
  max_iter : Nat
  precision : ℚ
  population_size : Nat
  sigma : ℚ

/-- `ci_z`: one coordinate of the diagonal-approximation sample transform,
`Σ_j sqrt(|C[i][j]|) * z[j]`. -/
def cmaSampleCoord (sqrtF : ℚ → ℚ) (Crow z : List ℚ) : ℚ :=
  (List.zipWith (fun cij zj => sqrtF |cij| * zj) Crow z).sum

/-- One offspring before clamping: `offspring[i] = mean[i] + sigma * ci_z`. -/
def cmaOffspring (sqrtF : ℚ → ℚ) (mean : List ℚ) (sigma : ℚ)
    (C : List (List ℚ)) (z : List ℚ) : List ℚ :=
  (List.range mean.length).map fun i =>
    mean.getD i 0 + sigma * cmaSampleCoord sqrtF (C.getD i []) z

/-- Result of the per-generation offspring loop. -/
structure CmaEvalOut where
  evs : List SolverEvent
  population : List (List ℚ)
  costs : List ℚ
  best_cost : Option ℚ
  best_params : List ℚ
  ctr : Nat

/-- The `for _ in 0..lambda` loop of `CMAESOptimizer::solve`: sample, clamp
to bounds, apply constraints, evaluate cost on the `apply_constraints`
output, record population/costs, track the best.  `none` models
`f64::INFINITY`. -/
def cmaEvalGo (costF : List ℚ → ℚ) (applyF : List ℚ → List ℚ)
    (bounds : List (ℚ × ℚ)) (sqrtF : ℚ → ℚ) (rngF : Nat → ℚ) (n : Nat)
    (mean : List ℚ) (sigma : ℚ) (C : List (List ℚ)) :
    Nat → Nat → Option ℚ → List ℚ → CmaEvalOut
  | 0, ctr, bc, bp => ⟨[], [], [], bc, bp, ctr⟩
  | k + 1, ctr, bc, bp =>
      let z := (drawVec rngF n ctr).1
      let ctr2 := (drawVec rngF n ctr).2
      let oc := clampVec bounds (cmaOffspring sqrtF mean sigma C z)
      let out := applyF oc
      let c := costF out
      let isBest : Bool := match bc with
        | none => true
        | some bv => decide (c < bv)
      let bc2 := if isBest then some c else bc
      let bp2 := if isBest then out else bp
      let r := cmaEvalGo costF applyF bounds sqrtF rngF n mean sigma C k ctr2 bc2 bp2
      ⟨SolverEvent.applyEv oc out :: SolverEvent.costEv out :: r.evs,
        out :: r.population, c :: r.costs, r.best_cost, r.best_params, r.ctr⟩

/-- Recombination weights: `max(ln(mu + 0.5) - ln(i + 1), 0)`, normalized by
their sum. -/
def cmaWeights (lnF : ℚ → ℚ) (mu : Nat) : List ℚ :=
  let raw := (List.range mu).map fun i =>
    max (lnF ((mu : ℚ) + 1 / 2) - lnF ((i : ℚ) + 1)) 0
  raw.map fun w => w / raw.sum

/-- `indices.sort_by(costs partial_cmp)`: fitness-sorted population
indices. -/
def cmaSortIndices (costs : List ℚ) (lambda : Nat) : List Nat :=
  (List.range lambda).mergeSort (fun a b => decide (costs.getD a 0 ≤ costs.getD b 0))

/-- Recombined mean: `mean[j] += weights[i] * population[indices[i]][j]`
over `i in 0..mu`, starting from the zero vector. -/
def cmaNewMean (n mu : Nat) (weights : List ℚ) (indices : List Nat)
    (population : List (List ℚ)) : List ℚ :=
  (List.range mu).foldl
    (fun m i =>
      (List.range n).map fun j =>
        m.getD j 0 + weights.getD i 0 * (population.getD (indices.getD i 0) []).getD j 0)
    (List.replicate n 0)

/-- Rank-one covariance update:
`C[i][j] = (1 - c1 - cmu) * C[i][j] + c1 * pc[i] * pc[j]`. -/
def cmaCUpd (c1 cmu : ℚ) (pc : List ℚ) (C : List (List ℚ)) (n : Nat) :
    List (List ℚ) :=
  (List.range n).map fun i =>
    (List.range n).map fun j =>
      (1 - c1 - cmu) * (C.getD i []).getD j 0 + c1 * pc.getD i 0 * pc.getD j 0

/-- Main loop of `CMAESOptimizer::solve`: evaluate the generation, early
returns (callback / converged), then recombination, evolution-path, step-size
and covariance updates. -/
def cmaLoop (costF : List ℚ → ℚ) (applyF : List ℚ → List ℚ)
    (bounds : List (ℚ × ℚ)) (stopF : Nat → Bool) (rngF : Nat → ℚ)
    (sqrtF expF : ℚ → ℚ) (precision : ℚ) (n lambda mu : Nat)
    (weights : List ℚ) (cc cs c1 cmu damps : ℚ) :
    Nat → Nat → List ℚ → ℚ → List (List ℚ) → List ℚ → List ℚ → Option ℚ →
    List ℚ → Nat → List SolverEvent
  | 0, _, _, _, _, _, _, _, _, _ => []
  | k + 1, iter, mean, sigma, C, ps, pc, bc, bp, ctr =>
      let ev := cmaEvalGo costF applyF bounds sqrtF rngF n mean sigma C lambda ctr bc bp
      if stopF iter then ev.evs
      else if optLt ev.best_cost precision then ev.evs
      else
        let indices := cmaSortIndices ev.costs lambda
        let mean2 := cmaNewMean n mu weights indices ev.population
        let ms := List.zipWith (fun m om => (m - om) / sigma) mean2 mean
        let ps2 := List.zipWith
          (fun p m => (1 - cs) * p + sqrtF (cs * (2 - cs) * (mu : ℚ)) * m) ps ms
        let ps_norm := sqrtF ((ps2.map fun x => x * x).sum)
        let expectation_norm := sqrtF (n : ℚ) * (1 - 1 / (4 * (n : ℚ)))
        let sigma2 := sigma * expF ((cs / damps) * (ps_norm / expectation_norm - 1))
        let pc2 := List.zipWith (fun p m => (1 - cc) * p + cc * m) pc ms
        let C2 := cmaCUpd c1 cmu pc2 C n
        ev.evs ++ cmaLoop costF applyF bounds stopF rngF sqrtF expF precision
          n lambda mu weights cc cs c1 cmu damps k (iter + 1) mean2 sigma2 C2
          ps2 pc2 ev.best_cost ev.best_params ev.ctr

/-- Event trace of `CMAESOptimizer::solve`: strategy-parameter setup
(`lambda = 4 + floor(3 ln n)` when the population size is 0, identity
covariance, zero evolution paths, infinite best cost), then the main loop. -/
def cmaTrace (cfg : CmaCfg) (costF : List ℚ → ℚ) (applyF : List ℚ → List ℚ)
    (bounds : List (ℚ × ℚ)) (stopF : Nat → Bool) (rngF : Nat → ℚ)
    (sqrtF lnF expF : ℚ → ℚ) (initial : List ℚ) : List SolverEvent :=
  let n := initial.length
  let lambda := if cfg.population_size = 0 then
      4 + (⌊3 * lnF (n : ℚ)⌋).toNat
    else cfg.population_size
  let mu := lambda / 2
  let C0 := (List.range n).map fun i =>
    (List.range n).map fun j => if i = j then (1 : ℚ) else 0
  let cc := 4 / ((n : ℚ) + 4)
  let cs := 4 / ((n : ℚ) + 4)
  let c1 := 2 / ((n : ℚ) + 13 / 10) ^ 2
  let cmu := 2 * ((mu : ℚ) - 2 + 1 / (mu : ℚ)) / ((n : ℚ) + 2) ^ 2
  let damps := 1 + 2 * max 0 (sqrtF (((mu : ℚ) - 1) / ((n : ℚ) + 1)) - 1) + cs
  cmaLoop costF applyF bounds stopF rngF sqrtF expF cfg.precision n lambda mu
    (cmaWeights lnF mu) cc cs c1 cmu damps cfg.max_iter 0 initial cfg.sigma C0
    (List.replicate n 0) (List.replicate n 0) none initial 0

/-- CMA-ES form of the C2 property: every `cost` call is immediately
preceded by an `apply_constraints` call, and its argument is exactly the
`apply_constraints` output. -/
def costApplyAdjacent (t : List SolverEvent) : Prop :=
  ∀ j v, t.get? j = some (SolverEvent.costEv v) →
    ∃ jp inp, j = jp + 1 ∧ t.get? jp = some (SolverEvent.applyEv inp v)

end UWASIC

namespace UWASIC

theorem except_bind_ok {ε α β : Type} {e : Except ε α} {f : α → Except ε β} {b : β}
    (h : (e >>= f) = .ok b) : ∃ a, e = .ok a ∧ f a = .ok b := by
  cases e with
  | error m => simp [Bind.bind, Except.bind] at h
  | ok a => exact ⟨a, rfl, by simpa [Bind.bind, Except.bind] using h⟩

theorem position_spec {α : Type} (p : α → Bool) :
    ∀ (l : List α) (i : Nat), position p l = some i →
      i < l.length ∧ ∃ x, l.get? i = some x ∧ p x = true := by
  intro l
  induction l with
  | nil => intro i h; simp [position] at h
  | cons a l ih =>
    intro i h
    simp only [position] at h
    by_cases hp : p a
    · simp [hp] at h
      subst h
      exact ⟨by simp, a, rfl, hp⟩
    · simp [hp] at h
      obtain ⟨j, hj, rfl⟩ := h
      obtain ⟨hlt, x, hx, hpx⟩ := ih j hj
      exact ⟨by simpa using hlt, x, by simpa using hx, hpx⟩

theorem findOpFrom_lt (s : List Char) (ops : List Char) :
    ∀ (i : Nat) (d : ℤ) (pos : Nat), findOpFrom s ops i d = some pos → pos < i := by
  intro i
  induction i with
  | zero => intro d pos h; simp [findOpFrom] at h
  | succ i ih =>
    intro d pos h
    simp only [findOpFrom] at h
    split at h
    · exact Nat.lt_succ_of_lt (ih _ _ h)
    · split at h
      · exact Nat.lt_succ_of_lt (ih _ _ h)
      · split at h
        · simp at h; omega
        · exact Nat.lt_succ_of_lt (ih _ _ h)

theorem find_op_lt {s : List Char} {ops : List Char} {pos : Nat}
    (h : find_op s ops = some pos) : pos < s.length :=
  findOpFrom_lt s ops s.length 0 pos h

theorem runInsts_append (powFn : ℚ → ℚ → ℚ) (C P : List ℚ) :
    ∀ (l1 l2 : List OpCode) (stack : List ℚ),
      runInsts powFn C P (l1 ++ l2) stack =
        (runInsts powFn C P l1 stack) >>= runInsts powFn C P l2 := by
  intro l1
  induction l1 with
  | nil => intro l2 stack; simp [runInsts, Bind.bind, Except.bind]
  | cons i l1 ih =>
    intro l2 stack
    simp only [List.cons_append, runInsts]
    cases stepInst powFn C P i stack with
    | error e => simp [Bind.bind, Except.bind]
    | ok s' => simpa [Bind.bind, Except.bind] using ih l2 s'

theorem codeEval_ext {P : List ℚ} {Δ : List OpCode} {a : Expr} {n : Nat}
    (t : List ℚ) (h : CodeEval P Δ a n) : CodeEval (P ++ t) Δ a n := by
  intro powFn params hn ext stack hd
  have := h powFn params hn (t ++ ext) stack hd
  rwa [← List.append_assoc] at this

theorem codeEval_comp {P : List ℚ} {Δ1 Δ2 : List OpCode} {l r : Expr} {n : Nat}
    (op : OpCode) (mk2 : Expr → Expr → Expr)
    (opSem : (ℚ → ℚ → ℚ) → ℚ → ℚ → Except String ℚ)
    (hstep : ∀ (powFn : ℚ → ℚ → ℚ) (C params : List ℚ) (a b : ℚ) (stack : List ℚ),
      stepInst powFn C params op (b :: a :: stack) =
        match opSem powFn a b with
        | .ok v => .ok (v :: stack)
        | .error m => .error (.err m))
    (htree : ∀ (powFn : ℚ → ℚ → ℚ) (params : List ℚ),
      evalTree powFn params (mk2 l r) =
        (evalTree powFn params l).bind (fun a =>
          (evalTree powFn params r).bind (fun b => opSem powFn a b)))
    (hdepth : maxDepth (mk2 l r) = max (maxDepth l) (maxDepth r + 1))
    (hL : CodeEval P Δ1 l n) (hR : CodeEval P Δ2 r n) :
    CodeEval P (Δ1 ++ (Δ2 ++ [op])) (mk2 l r) n := by
  intro powFn params hn ext stack hd
  rw [runInsts_append]
  have hdl : stack.length + maxDepth l ≤ STACK_CAP := by
    have : maxDepth l ≤ maxDepth (mk2 l r) := by rw [hdepth]; exact le_max_left _ _
    omega
  rw [hL powFn params hn ext stack hdl, htree]
  cases hel : evalTree powFn params l with
  | error m => simp [Bind.bind, Except.bind]
  | ok a =>
    simp only [Bind.bind, Except.bind]
    rw [runInsts_append]
    have hdr : (a :: stack).length + maxDepth r ≤ STACK_CAP := by
      have : maxDepth r + 1 ≤ maxDepth (mk2 l r) := by rw [hdepth]; exact le_max_right _ _
      simp only [List.length_cons]
      omega
    rw [hR powFn params hn ext (a :: stack) hdr]
    cases her : evalTree powFn params r with
    | error m => simp [Bind.bind, Except.bind]
    | ok b =>
      simp only [Bind.bind, Except.bind, runInsts]
      rw [hstep]
      cases opSem powFn a b with
      | error m => simp [Bind.bind, Except.bind]
      | ok v => simp [Bind.bind, Except.bind, runInsts]

theorem codeEval_const {pool : List ℚ} {idx : Nat} {q : ℚ} (n : Nat)
    (h : pool.get? idx = some q) : CodeEval pool [.loadConst idx] (.num q) n := by
  intro powFn params _ ext stack hd
  have hlt : idx < pool.length := by
    by_contra hc
    rw [List.get?_eq_none.mpr (le_of_not_lt hc)] at h
    exact Option.noConfusion h
  have hcap : stack.length < STACK_CAP := by
    simp only [maxDepth] at hd; omega
  simp only [runInsts, stepInst, List.get?_append hlt, h]
  simp [pushV, hcap, evalTree, Bind.bind, Except.bind, runInsts]

theorem codeEval_param (pool : List ℚ) {idx n : Nat} (hi : idx < n) :
    CodeEval pool [.loadParam idx] (.pvar idx) n := by
  intro powFn params hn ext stack hd
  have hlt : idx < params.length := lt_of_lt_of_le hi hn
  obtain ⟨v, hv⟩ : ∃ v, params.get? idx = some v := by
    cases hg : params.get? idx with
    | none => rw [List.get?_eq_none] at hg; omega
    | some v => exact ⟨v, rfl⟩
  have hcap : stack.length < STACK_CAP := by
    simp only [maxDepth] at hd; omega
  have hv2 : params[idx]? = some v := by rw [← List.get?_eq_getElem?]; exact hv
  simp only [runInsts, stepInst, hv]
  simp [pushV, hcap, evalTree, hv2, Bind.bind, Except.bind, runInsts]

theorem POut_mono_s {ps : List String} {st : CState} {s1 s2 : List Char} {st' : CState}
    {a : Expr} (h : POut ps st s1 st' a) (hle : s1.length ≤ s2.length) :
    POut ps st s2 st' a := by
  obtain ⟨hi, ⟨t, hc, hl⟩, hv⟩ := h
  exact ⟨hi, ⟨t, hc, le_trans hl hle⟩, hv⟩

theorem add_const_spec (st : CState) (q : ℚ) :
    (add_const st q).1.instructions = st.instructions ∧
    (∃ t, (add_const st q).1.constants = st.constants ++ t ∧ t.length ≤ 1) ∧
    (add_const st q).1.constants.get? (add_const st q).2 = some q ∧
    (add_const st q).2 < (add_const st q).1.constants.length := by
  unfold add_const
  cases hp : position (fun v => v = q) st.constants with
  | some i =>
    obtain ⟨hlt, x, hx, hpx⟩ := position_spec _ _ _ hp
    have hxq : x = q := by simpa using hpx
    subst hxq
    exact ⟨rfl, ⟨[], by simp, by simp⟩, hx, hlt⟩
  | none =>
    refine ⟨rfl, ⟨[q], rfl, by simp⟩, ?_, by simp⟩
    exact List.get?_concat_length st.constants q

theorem parseLvl_sound_atom (ps : List String) (hps : ps.length ≤ 65536) (fuel : Nat)
    (ih : ∀ (lvl : Nat) (st : CState) (s : List Char) (st' : CState),
      st.constants.length + s.length ≤ 65536 →
      parseLvl ps fuel lvl st s = .ok st' →
      ∃ a, refParseLvl ps fuel lvl s = .ok a ∧ POut ps st s st' a)
    (st : CState) (s : List Char) (st' : CState)
    (hsz : st.constants.length + s.length ≤ 65536)
    (h : parseLvl ps (fuel + 1) 0 st s = .ok st') :
    ∃ a, refParseLvl ps (fuel + 1) 0 s = .ok a ∧ POut ps st s st' a := by
  simp only [parseLvl] at h
  simp only [refParseLvl]
  simp only [List.drop_one] at h ⊢
  by_cases hs0 : s = []
  · simp [hs0] at h
  simp only [hs0, if_false] at h ⊢
  by_cases hpar : s.headD ' ' = '('
  · simp only [hpar, if_true] at h ⊢
    by_cases hlast : s.getLast? = some ')'
    · simp only [hlast, if_true] at h ⊢
      by_cases hbal : is_balanced (s.tail.dropLast) 0 = true
      · simp only [hbal, if_true] at h ⊢
        have hinlen : (s.tail.dropLast).length ≤ s.length := by
          simp only [List.length_dropLast, List.length_tail]
          omega
        obtain ⟨a, hra, hout⟩ := ih 3 st _ st' (by omega) h
        exact ⟨a, hra, POut_mono_s hout hinlen⟩
      · simp [hbal] at h
    · simp [hlast] at h
  simp only [hpar, if_false] at h ⊢
  by_cases hchars : s.all atomCharOk = true
  · simp only [hchars, not_true, if_false] at h ⊢
    cases hnum : rustParseF64 s with
    | some rv =>
      cases rv with
      | fin q =>
        simp only [hnum] at h ⊢
        obtain ⟨hins, ⟨t, hct, htl⟩, hget, hlt⟩ := add_const_spec st q
        have hidx : (add_const st q).2 % 65536 = (add_const st q).2 := by
          apply Nat.mod_eq_of_lt
          have h1 : (add_const st q).1.constants.length ≤ st.constants.length + 1 := by
            rw [hct]; simp; omega
          have hs1 : 1 ≤ s.length := by
            cases s with
            | nil => exact absurd rfl hs0
            | cons c cs => simp
          omega
        have hst' : st' = { (add_const st q).1 with instructions :=
            (add_const st q).1.instructions ++ [OpCode.loadConst ((add_const st q).2 % 65536)] } := by
          exact (Except.ok.injEq _ _).mp h.symm
        refine ⟨.num q, rfl, ⟨[OpCode.loadConst ((add_const st q).2 % 65536)], ?_, ?_⟩,
          ⟨t, ?_, ?_⟩, trivial⟩
        · rw [hst']; simp [hins]
        · rw [hst']
          simp only
          rw [hidx]
          exact codeEval_const ps.length hget
        · rw [hst']; simpa using hct
        · have hs1 : 1 ≤ s.length := by
            cases s with
            | nil => exact absurd rfl hs0
            | cons c cs => simp
          omega
      | infVal => simp [hnum] at h
      | nanVal => simp [hnum] at h
    | none =>
      simp only [hnum] at h ⊢
      cases hpos : position (fun p => p.data = s) ps with
      | some idx =>
        simp only [hpos] at h ⊢
        obtain ⟨hlt, x, hx, hpx⟩ := position_spec _ _ _ hpos
        have hidx : idx % 65536 = idx := Nat.mod_eq_of_lt (by omega)
        have hst' : st' = { st with instructions :=
            st.instructions ++ [OpCode.loadParam (idx % 65536)] } :=
          (Except.ok.injEq _ _).mp h.symm
        refine ⟨.pvar idx, rfl, ⟨[OpCode.loadParam (idx % 65536)], ?_, ?_⟩,
          ⟨[], ?_, ?_⟩, ?_⟩
        · rw [hst']
        · rw [hst']
          simp only
          rw [hidx]
          exact codeEval_param st.constants hlt
        · rw [hst']; simp
        · simp
        · simpa [varsBelow] using hlt
      | none => simp [hpos] at h
  · simp [hchars] at h

theorem parseLvl_sound (ps : List String) (hps : ps.length ≤ 65536) :
    ∀ (fuel lvl : Nat) (st : CState) (s : List Char) (st' : CState),
      st.constants.length + s.length ≤ 65536 →
      parseLvl ps fuel lvl st s = .ok st' →
      ∃ a, refParseLvl ps fuel lvl s = .ok a ∧ POut ps st s st' a := by
  intro fuel
  induction fuel with
  | zero => intro lvl st s st' _ h; simp [parseLvl] at h
  | succ fuel ih =>
    intro lvl st s st' hsz h
    match lvl with
    | 0 => exact parseLvl_sound_atom ps hps fuel ih st s st' hsz h
    | (n + 4) => exact parseLvl_sound_atom ps hps fuel ih st s st' hsz h
    | 3 =>
      simp only [parseLvl] at h
      simp only [refParseLvl]
      cases hf : find_op s ['+', '-'] with
      | none =>
        simp only [hf] at h ⊢
        exact ih 2 st s st' hsz h
      | some pos =>
        simp only [hf] at h ⊢
        obtain ⟨st1, h1, hrest⟩ := except_bind_ok h
        obtain ⟨st2, h2, h3⟩ := except_bind_ok hrest
        have hst' : st' = { st2 with instructions := st2.instructions ++
            [if s.getD pos ' ' = '+' then OpCode.add else OpCode.sub] } := by
          simpa [pure, Except.pure] using h3.symm
        have hpos : pos < s.length := find_op_lt hf
        have htl : (s.take pos).length = pos := by
          simp only [List.length_take]; omega
        have hdl : (s.drop (pos + 1)).length = s.length - (pos + 1) := by
          simp only [List.length_drop]
        obtain ⟨la, hrl, ⟨Δ1, hi1, hc1⟩, ⟨t1, hk1, hl1⟩, hv1⟩ :=
          ih 3 st (s.take pos) st1 (by rw [htl]; omega) h1
        rw [htl] at hl1
        obtain ⟨ra, hrr, ⟨Δ2, hi2, hc2⟩, ⟨t2, hk2, hl2⟩, hv2⟩ :=
          ih 2 st1 (s.drop (pos + 1)) st2
            (by simp only [hk1, List.length_append, hdl]; omega) h2
        rw [hdl] at hl2
        refine ⟨if s.getD pos ' ' = '+' then Expr.add la ra else Expr.sub la ra,
          ?_, ⟨Δ1 ++ (Δ2 ++ [if s.getD pos ' ' = '+' then OpCode.add else OpCode.sub]),
            ?_, ?_⟩, ⟨t1 ++ t2, ?_, ?_⟩, ?_⟩
        · simp [hrl, hrr, Bind.bind, Except.bind, pure, Except.pure]
        · rw [hst']; simp only; rw [hi2, hi1]; simp [List.append_assoc]
        · have hc1e : CodeEval st2.constants Δ1 la ps.length := by
            rw [hk2]; exact codeEval_ext t2 hc1
          rw [hst']
          simp only
          by_cases hch : s.getD pos ' ' = '+'
          · simp only [hch, if_true]
            exact codeEval_comp OpCode.add Expr.add (fun _ a b => .ok (a + b))
              (fun _ _ _ _ _ _ => rfl) (fun _ _ => rfl) rfl hc1e hc2
          · simp only [hch, if_false]
            exact codeEval_comp OpCode.sub Expr.sub (fun _ a b => .ok (a - b))
              (fun _ _ _ _ _ _ => rfl) (fun _ _ => rfl) rfl hc1e hc2
        · rw [hst']; simp only; rw [hk2, hk1, List.append_assoc]
        · rw [List.length_append]; omega
        · by_cases hch : s.getD pos ' ' = '+'
          · rw [if_pos hch]; exact ⟨hv1, hv2⟩
          · rw [if_neg hch]; exact ⟨hv1, hv2⟩
    | 2 =>
      simp only [parseLvl] at h
      simp only [refParseLvl]
      cases hf : find_op s ['*', '/'] with
      | none =>
        simp only [hf] at h ⊢
        exact ih 1 st s st' hsz h
      | some pos =>
        simp only [hf] at h ⊢
        obtain ⟨st1, h1, hrest⟩ := except_bind_ok h
        obtain ⟨st2, h2, h3⟩ := except_bind_ok hrest
        have hst' : st' = { st2 with instructions := st2.instructions ++
            [if s.getD pos ' ' = '*' then OpCode.mul else OpCode.div] } := by
          simpa [pure, Except.pure] using h3.symm
        have hpos : pos < s.length := find_op_lt hf
        have htl : (s.take pos).length = pos := by
          simp only [List.length_take]; omega
        have hdl : (s.drop (pos + 1)).length = s.length - (pos + 1) := by
          simp only [List.length_drop]
        obtain ⟨la, hrl, ⟨Δ1, hi1, hc1⟩, ⟨t1, hk1, hl1⟩, hv1⟩ :=
          ih 2 st (s.take pos) st1 (by rw [htl]; omega) h1
        rw [htl] at hl1
        obtain ⟨ra, hrr, ⟨Δ2, hi2, hc2⟩, ⟨t2, hk2, hl2⟩, hv2⟩ :=
          ih 1 st1 (s.drop (pos + 1)) st2
            (by simp only [hk1, List.length_append, hdl]; omega) h2
        rw [hdl] at hl2
        refine ⟨if s.getD pos ' ' = '*' then Expr.mul la ra else Expr.div la ra,
          ?_, ⟨Δ1 ++ (Δ2 ++ [if s.getD pos ' ' = '*' then OpCode.mul else OpCode.div]),
            ?_, ?_⟩, ⟨t1 ++ t2, ?_, ?_⟩, ?_⟩
        · simp [hrl, hrr, Bind.bind, Except.bind, pure, Except.pure]
        · rw [hst']; simp only; rw [hi2, hi1]; simp [List.append_assoc]
        · have hc1e : CodeEval st2.constants Δ1 la ps.length := by
            rw [hk2]; exact codeEval_ext t2 hc1
          rw [hst']
          simp only
          by_cases hch : s.getD pos ' ' = '*'
          · simp only [hch, if_true]
            exact codeEval_comp OpCode.mul Expr.mul (fun _ a b => .ok (a * b))
              (fun _ _ _ _ _ _ => rfl) (fun _ _ => rfl) rfl hc1e hc2
          · simp only [hch, if_false]
            refine codeEval_comp OpCode.div Expr.div
              (fun _ a b => if b = 0 then .error "Division by zero" else .ok (a / b))
              ?_ (fun _ _ => rfl) rfl hc1e hc2
            intro powFn C params a b stack
            by_cases hb : b = 0 <;> simp [stepInst, binApp, hb, Except.map]
        · rw [hst']; simp only; rw [hk2, hk1, List.append_assoc]
        · rw [List.length_append]; omega
        · by_cases hch : s.getD pos ' ' = '*'
          · rw [if_pos hch]; exact ⟨hv1, hv2⟩
          · rw [if_neg hch]; exact ⟨hv1, hv2⟩
    | 1 =>
      simp only [parseLvl] at h
      simp only [refParseLvl]
      cases hf : find_op s ['^'] with
      | none =>
        simp only [hf] at h ⊢
        exact ih 0 st s st' hsz h
      | some pos =>
        simp only [hf] at h ⊢
        obtain ⟨st1, h1, hrest⟩ := except_bind_ok h
        obtain ⟨st2, h2, h3⟩ := except_bind_ok hrest
        have hst' : st' = { st2 with instructions := st2.instructions ++ [OpCode.pow] } := by
          simpa [pure, Except.pure] using h3.symm
        have hpos : pos < s.length := find_op_lt hf
        have htl : (s.take pos).length = pos := by
          simp only [List.length_take]; omega
        have hdl : (s.drop (pos + 1)).length = s.length - (pos + 1) := by
          simp only [List.length_drop]
        obtain ⟨la, hrl, ⟨Δ1, hi1, hc1⟩, ⟨t1, hk1, hl1⟩, hv1⟩ :=
          ih 0 st (s.take pos) st1 (by rw [htl]; omega) h1
        rw [htl] at hl1
        obtain ⟨ra, hrr, ⟨Δ2, hi2, hc2⟩, ⟨t2, hk2, hl2⟩, hv2⟩ :=
          ih 0 st1 (s.drop (pos + 1)) st2
            (by simp only [hk1, List.length_append, hdl]; omega) h2
        rw [hdl] at hl2
        refine ⟨Expr.pow la ra,
          ?_, ⟨Δ1 ++ (Δ2 ++ [OpCode.pow]), ?_, ?_⟩, ⟨t1 ++ t2, ?_, ?_⟩, ?_⟩
        · simp [hrl, hrr, Bind.bind, Except.bind, pure, Except.pure]
        · rw [hst']; simp only; rw [hi2, hi1]; simp [List.append_assoc]
        · have hc1e : CodeEval st2.constants Δ1 la ps.length := by
            rw [hk2]; exact codeEval_ext t2 hc1
          rw [hst']
          simp only
          exact codeEval_comp OpCode.pow Expr.pow (fun powFn a b => .ok (powFn a b))
            (fun _ _ _ _ _ _ => rfl) (fun _ _ => rfl) rfl hc1e hc2
        · rw [hst']; simp only; rw [hk2, hk1, List.append_assoc]
        · rw [List.length_append]; omega
        · exact ⟨hv1, hv2⟩

theorem compile_sound {ps : List String} {e : List Char} {c : CompiledExpression}
    (hps : ps.length < 65536) (he : e.length ≤ 65536)
    (hc : compile ps e = .ok c) :
    ∃ a, refParse ps e = .ok a ∧ c.paramCount = ps.length ∧
      varsBelow a ps.length ∧ CodeEval c.constants c.instructions a ps.length := by
  unfold compile at hc
  unfold refParse
  by_cases h0 : e = []
  · simp [h0] at hc
  simp only [h0, if_false] at hc ⊢
  by_cases h1 : e.filter (fun c => ¬ c.isWhitespace) = []
  · simp only [h1, if_true] at hc
    exact absurd hc (by simp)
  simp only [h1, if_false] at hc ⊢
  obtain ⟨st, hst, hpure⟩ := except_bind_ok hc
  have hcle : (e.filter (fun c => ¬ c.isWhitespace)).length ≤ 65536 :=
    le_trans (List.length_filter_le _ _) he
  obtain ⟨a, hra, ⟨Δ, hiΔ, hcd⟩, hk, hv⟩ :=
    parseLvl_sound ps (le_of_lt hps) _ 3 ⟨[], []⟩ _ st (by simpa using hcle) hst
  have hc2 : c = ⟨st.instructions, st.constants, ps.length % 65536⟩ := by
    simpa [pure, Except.pure] using hpure.symm
  refine ⟨a, hra, ?_, hv, ?_⟩
  · rw [hc2]; simp [Nat.mod_eq_of_lt hps]
  · rw [hc2]
    have hieq : st.instructions = Δ := by simpa using hiΔ
    simpa [hieq] using hcd

theorem compile_evaluate_eq {ps : List String} {e : List Char} {c : CompiledExpression}
    (powFn : ℚ → ℚ → ℚ) (params : List ℚ)
    (hps : ps.length < 65536) (he : e.length ≤ 65536)
    (hc : compile ps e = .ok c) (hlen : params.length = ps.length) :
    ∃ a, refParse ps e = .ok a ∧
      (maxDepth a ≤ STACK_CAP →
        c.evaluate powFn params = toER (evalTree powFn params a)) := by
  obtain ⟨a, hra, hpc, hv, hcd⟩ := compile_sound hps he hc
  refine ⟨a, hra, fun hd => ?_⟩
  have hne : ¬ params.length ≠ c.paramCount := by rw [hlen, hpc]; simp
  unfold CompiledExpression.evaluate
  rw [if_neg hne]
  have hrun := hcd powFn params (by omega) [] [] (by simpa using hd)
  rw [List.append_nil] at hrun
  rw [hrun]
  cases evalTree powFn params a with
  | ok v => simp [toER]
  | error m => simp [toER]

/-- C4: the compiled VM agrees with a reference tree evaluator of the §4.1
grammar on every expression whose evaluation-stack depth stays within the
32-slot VM stack (sizes within the `u16` index range); the two concrete
scenarios hold as stated.  The depth bound is necessary: without it the claim
fails (see the counterexample). -/
theorem C4_vm_matches_reference :
    (∀ (ps : List String) (e : List Char) (c : CompiledExpression)
      (params : List ℚ) (powFn : ℚ → ℚ → ℚ),
      ps.length < 65536 → e.length ≤ 65536 →
      compile ps e = .ok c → params.length = ps.length →
      ∃ a, refParse ps e = .ok a ∧
        (maxDepth a ≤ STACK_CAP →
          c.evaluate powFn params = toER (evalTree powFn params a)))
    ∧ compileEval qpowZ ["a", "b", "c"] "(a+b)*c - 2^3".toList [1, 2, 4] = .ok 4
    ∧ compileEval qpowZ ["a"] "a/0".toList [1] = .err "Division by zero" := by
  refine ⟨?_, ?_, ?_⟩
  · intro ps e c params powFn hps he hc hlen
    exact compile_evaluate_eq powFn params hps he hc hlen
  · with_unfolding_all decide
  · with_unfolding_all decide

/-- C4 witness: the general equivalence applied to the concrete scenario
`(a+b)*c - 2^3` at `[1,2,4]`. -/
theorem C4_vm_matches_reference_witness :
    ∃ a, refParse ["a", "b", "c"] "(a+b)*c - 2^3".toList = .ok a ∧
      (maxDepth a ≤ STACK_CAP →
        cexpr1.evaluate qpowZ [1, 2, 4] = toER (evalTree qpowZ [1, 2, 4] a)) :=
  C4_vm_matches_reference.1 ["a", "b", "c"] _ cexpr1 [1, 2, 4] qpowZ
    (by decide) (by with_unfolding_all decide) (by with_unfolding_all decide) (by decide)

set_option maxRecDepth 8000 in
/-- C4 counterexample: at the depth-33 expression `1+(1+(…))` the VM panics on
its fixed 32-slot stack while the reference tree evaluator returns 33, so the
unrestricted equality of the claim is false. -/
theorem C4_vm_matches_reference_cex :
    compileEval qpowZ [] (deepExpr 32) [] = .panic "stack index out of bounds" ∧
    (refParse [] (deepExpr 32)).map (evalTree qpowZ []) = .ok (.ok 33) := by
  constructor
  · with_unfolding_all decide
  · with_unfolding_all decide

/-- C5 (amended): `compile` performs no stack-depth check.  For expressions
whose reference-tree depth is at most 32 the VM never faults on a stack
index, but deeper expressions are accepted by `compile` and `evaluate` then
panics (see the counterexample). -/
theorem C5_no_stack_overflow_below_cap :
    ∀ (ps : List String) (e : List Char) (c : CompiledExpression),
      ps.length < 65536 → e.length ≤ 65536 →
      compile ps e = .ok c →
      ∀ a, refParse ps e = .ok a → maxDepth a ≤ STACK_CAP →
      ∀ (params : List ℚ) (powFn : ℚ → ℚ → ℚ) (m : String),
        c.evaluate powFn params ≠ .panic m := by
  intro ps e c hps he hc a hra hd params powFn m
  obtain ⟨a2, hra2, hpc, _, _⟩ := compile_sound hps he hc
  by_cases hlen : params.length = ps.length
  · obtain ⟨a3, hra3, heq⟩ := compile_evaluate_eq powFn params hps he hc hlen
    have ha3 : a3 = a := by
      rw [hra] at hra3
      exact ((Except.ok.injEq _ _).mp hra3).symm
    rw [ha3] at heq
    rw [heq hd]
    cases evalTree powFn params a with
    | ok v => simp [toER]
    | error m2 => simp [toER]
  · have hne : params.length ≠ c.paramCount := by rw [hpc]; exact hlen
    unfold CompiledExpression.evaluate
    rw [if_pos hne]
    simp

/-- C5 witness: the depth-2 expression `a/0` evaluates without any stack
panic. -/
theorem C5_no_stack_overflow_below_cap_witness :
    cdiv.evaluate qpowZ [1] ≠ .panic "stack index out of bounds" :=
  C5_no_stack_overflow_below_cap ["a"] "a/0".toList cdiv (by decide)
    (by with_unfolding_all decide) (by with_unfolding_all decide)
    (.div (.pvar 0) (.num 0)) (by with_unfolding_all decide) (by decide)
    [1] qpowZ "stack index out of bounds"

set_option maxRecDepth 8000 in
/-- C5 counterexample: the depth-33 expression `1+(1+(…))` is not rejected at
compile time — `compile` accepts it and `evaluate` then panics with a stack
index out of bounds. -/
theorem C5_no_stack_overflow_below_cap_cex :
    (compile [] (deepExpr 32)).isOk = true ∧
    compileEval qpowZ [] (deepExpr 32) [] = .panic "stack index out of bounds" := by
  constructor
  · with_unfolding_all decide
  · with_unfolding_all decide

/-- C10: on a parameter slice whose length differs from the compiled arity,
`evaluate` returns the `Parameter count mismatch` error before executing any
instruction — the result is the same as for the empty instruction list, for
every instruction list. -/
theorem C10_arity_mismatch_early_error :
    ∀ (c : CompiledExpression) (powFn : ℚ → ℚ → ℚ) (params : List ℚ),
      params.length ≠ c.paramCount →
      c.evaluate powFn params = .err "Parameter count mismatch" ∧
      ∀ insts : List OpCode,
        (CompiledExpression.mk insts c.constants c.paramCount).evaluate powFn params =
          .err "Parameter count mismatch" := by
  intro c powFn params hne
  constructor
  · unfold CompiledExpression.evaluate
    rw [if_pos hne]
  · intro insts
    unfold CompiledExpression.evaluate
    rw [if_pos hne]

/-- C10 witness: the mismatch error at a concrete compiled expression and an
empty parameter slice. -/
theorem C10_arity_mismatch_early_error_witness :
    cexpr1.evaluate qpowZ [] = .err "Parameter count mismatch" ∧
    ∀ insts : List OpCode,
      (CompiledExpression.mk insts cexpr1.constants cexpr1.paramCount).evaluate qpowZ [] =
        .err "Parameter count mismatch" :=
  C10_arity_mismatch_early_error cexpr1 qpowZ [] (by decide)

theorem rustRoundZ_intCast (k : ℤ) : rustRoundZ (k : ℚ) = k := by
  unfold rustRoundZ
  have hhalf : ⌊(1 : ℚ) / 2⌋ = 0 := by
    rw [Int.floor_eq_zero_iff]
    constructor <;> norm_num
  by_cases hk : (0 : ℚ) ≤ (k : ℚ)
  · rw [if_pos hk, add_comm, Int.floor_add_int, hhalf, zero_add]
  · rw [if_neg hk]
    have he : -(k : ℚ) + 1 / 2 = (1 : ℚ) / 2 + (-k : ℤ) := by push_cast; ring
    rw [he, Int.floor_add_int, hhalf, zero_add, neg_neg]

theorem grid_mul_inv : SKY130_GRID_SIZE * SKY130_GRID_INV = 1 := by
  norm_num [SKY130_GRID_SIZE, SKY130_GRID_INV]

theorem gridRoundA_idem (x : ℚ) : gridRoundA (gridRoundA x) = gridRoundA x := by
  unfold gridRoundA rustRound
  rw [mul_assoc, grid_mul_inv, mul_one, rustRoundZ_intCast]

theorem roundB_eq_roundA : round_to_sky130_precision = gridRoundA := by
  funext x
  unfold round_to_sky130_precision gridRoundA SKY130_GRID_INV
  rw [mul_one_div]

theorem gridRoundA_grid_multiple (x : ℚ) :
    ∃ k : ℤ, gridRoundA x = k * SKY130_GRID_SIZE :=
  ⟨rustRoundZ (x * SKY130_GRID_INV), rfl⟩

theorem map_gridRoundA_idem (l : List ℚ) :
    (l.map gridRoundA).map gridRoundA = l.map gridRoundA := by
  rw [List.map_map]
  have h : gridRoundA ∘ gridRoundA = gridRoundA := funext gridRoundA_idem
  rw [h]

theorem applyA_nil (powFn : ℚ → ℚ → ℚ) (bounds : List (ℚ × ℚ))
    (cache : Option (List ℚ × List ℚ)) (params : List ℚ) :
    applyConstraintsA powFn bounds [] cache params =
      .ok (cache, params.map gridRoundA) := by
  unfold applyConstraintsA
  rw [if_pos rfl]

theorem applyA_none {cs : List ConstraintData} (hcs : cs ≠ [])
    (powFn : ℚ → ℚ → ℚ) (bounds : List (ℚ × ℚ)) (params : List ℚ) :
    applyConstraintsA powFn bounds cs none params = (do
      let results ← evaluate_all_constraints powFn cs params
      let ps ← applyResultsA bounds (cs.zip results) params
      pure (some (sourceKey cs params, results), ps.map gridRoundA)) := by
  unfold applyConstraintsA
  rw [if_neg hcs]

theorem applyA_some {cs : List ConstraintData} (hcs : cs ≠ [])
    (powFn : ℚ → ℚ → ℚ) (bounds : List (ℚ × ℚ)) (ck cr : List ℚ)
    (params : List ℚ) :
    applyConstraintsA powFn bounds cs (some (ck, cr)) params =
      if ck = sourceKey cs params then (do
        let ps ← applyResultsA bounds (cs.zip cr) params
        pure (none, ps.map gridRoundA))
      else (do
        let results ← evaluate_all_constraints powFn cs params
        let ps ← applyResultsA bounds (cs.zip results) params
        pure (some (sourceKey cs params, results), ps.map gridRoundA)) := by
  unfold applyConstraintsA
  rw [if_neg hcs]

theorem applyA_result_shape {powFn : ℚ → ℚ → ℚ} {bounds : List (ℚ × ℚ)}
    {cs : List ConstraintData} {cache : Option (List ℚ × List ℚ)}
    {params : List ℚ} {res : Option (List ℚ × List ℚ) × List ℚ}
    (h : applyConstraintsA powFn bounds cs cache params = .ok res) :
    ∃ l : List ℚ, res.2 = l.map gridRoundA := by
  by_cases hcs : cs = []
  · subst hcs
    rw [applyA_nil] at h
    have he := (Except.ok.injEq _ _).mp h
    refine ⟨params, ?_⟩
    rw [← he]
  · rcases cache with _ | ⟨ck, cr⟩
    · rw [applyA_none hcs] at h
      obtain ⟨results, h1, h2⟩ := except_bind_ok h
      obtain ⟨ps, h3, h4⟩ := except_bind_ok h2
      have he := (Except.ok.injEq _ _).mp h4
      refine ⟨ps, ?_⟩
      rw [← he]
    · rw [applyA_some hcs] at h
      by_cases hk : ck = sourceKey cs params
      · rw [if_pos hk] at h
        obtain ⟨ps, h3, h4⟩ := except_bind_ok h
        have he := (Except.ok.injEq _ _).mp h4
        refine ⟨ps, ?_⟩
        rw [← he]
      · rw [if_neg hk] at h
        obtain ⟨results, h1, h2⟩ := except_bind_ok h
        obtain ⟨ps, h3, h4⟩ := except_bind_ok h2
        have he := (Except.ok.injEq _ _).mp h4
        refine ⟨ps, ?_⟩
        rw [← he]

/-- C1 (amended): after either `apply_constraints` returns `Ok`, every entry
of the output vector is an integer multiple of the fabrication grid
`g = 5e-9` (exactly, in the exact-arithmetic model).  The bounds part of the
claim does not hold: for the empty constraint set the vector is only
grid-rounded and never clamped (see the counterexample). -/
theorem C1_grid_multiple_after_projection :
    (∀ (powFn : ℚ → ℚ → ℚ) (bounds : List (ℚ × ℚ)) (cs : List ConstraintData)
      (cache : Option (List ℚ × List ℚ)) (params : List ℚ)
      (res : Option (List ℚ × List ℚ) × List ℚ),
      applyConstraintsA powFn bounds cs cache params = .ok res →
      ∀ x ∈ res.2, ∃ k : ℤ, x = k * SKY130_GRID_SIZE)
    ∧ (∀ (powFn : ℚ → ℚ → ℚ) (bounds : List (ℚ × ℚ)) (cs : List ConstraintData)
      (params out : List ℚ),
      applyConstraintsB powFn bounds cs params = .ok out →
      ∀ x ∈ out, ∃ k : ℤ, x = k * SKY130_GRID_SIZE) := by
  constructor
  · intro powFn bounds cs cache params res h x hx
    obtain ⟨l, hl⟩ := applyA_result_shape h
    rw [hl] at hx
    obtain ⟨y, _, rfl⟩ := List.mem_map.mp hx
    exact gridRoundA_grid_multiple y
  · intro powFn bounds cs params out h x hx
    unfold applyConstraintsB at h
    obtain ⟨ps, h1, h2⟩ := except_bind_ok h
    have he := (Except.ok.injEq _ _).mp h2
    rw [← he, roundB_eq_roundA] at hx
    obtain ⟨y, _, rfl⟩ := List.mem_map.mp hx
    exact gridRoundA_grid_multiple y

set_option maxRecDepth 10000 in
/-- C1 witness: the grid-multiple conclusion at a concrete projection. -/
theorem C1_grid_multiple_after_projection_witness :
    ∃ k : ℤ, (5 : ℚ) = k * SKY130_GRID_SIZE :=
  C1_grid_multiple_after_projection.1 qpowZ [(0, 1)] [] none [5] (none, [5])
    (by with_unfolding_all decide) 5 (by simp)

set_option maxRecDepth 10000 in
/-- C1 counterexample: with the empty constraint set an out-of-bounds entry
survives `apply_constraints` unchanged — `5` with bounds `[0, 1]` stays `5`,
violating `p[i] ≤ max_i`. -/
theorem C1_grid_multiple_after_projection_cex :
    applyConstraintsA qpowZ [(0, 1)] [] none [5] = .ok (none, [5]) ∧
    ¬ ((5 : ℚ) ≤ 1) := by
  constructor
  · with_unfolding_all decide
  · with_unfolding_all decide

/-- C7 (amended): `apply_constraints` is idempotent when the problem has no
constraints — the grid rounding is idempotent, in both implementations.  With
constraints a second call can return a different vector, because the first
call's grid rounding changes the source values the constraints are evaluated
on (see the counterexample). -/
theorem C7_idempotent_without_constraints :
    (∀ (powFn : ℚ → ℚ → ℚ) (bounds : List (ℚ × ℚ))
      (cache cache2 : Option (List ℚ × List ℚ)) (params out : List ℚ),
      applyConstraintsA powFn bounds [] cache params = .ok (cache2, out) →
      applyConstraintsA powFn bounds [] cache2 out = .ok (cache2, out))
    ∧ (∀ (powFn : ℚ → ℚ → ℚ) (bounds : List (ℚ × ℚ)) (params out : List ℚ),
      applyConstraintsB powFn bounds [] params = .ok out →
      applyConstraintsB powFn bounds [] out = .ok out) := by
  constructor
  · intro powFn bounds cache cache2 params out h
    rw [applyA_nil] at h
    rw [applyA_nil]
    have he := (Except.ok.injEq _ _).mp h
    have ho : (params.map gridRoundA) = out := congrArg Prod.snd he
    rw [← ho, map_gridRoundA_idem]
  · intro powFn bounds params out h
    unfold applyConstraintsB at h ⊢
    rw [List.foldlM_nil] at h ⊢
    have h2 : Except.ok (params.map round_to_sky130_precision) = Except.ok out := h
    have he := (Except.ok.injEq _ _).mp h2
    show Except.ok (out.map round_to_sky130_precision) = Except.ok out
    rw [← he, roundB_eq_roundA, map_gridRoundA_idem]

set_option maxRecDepth 10000 in
/-- C7 witness: two consecutive constraint-free projections of `[5]`. -/
theorem C7_idempotent_without_constraints_witness :
    applyConstraintsA qpowZ [(0, 1)] [] none [5] = .ok (none, [5]) :=
  C7_idempotent_without_constraints.1 qpowZ [(0, 1)] none none [5] [5]
    (by with_unfolding_all decide)

set_option maxRecDepth 10000 in
/-- C7 counterexample: with the `Equals` constraint `p1 == 3*p0` and an
off-grid source `p0 = 7e-9`, the first call returns `[5e-9, 20e-9]` but a
second call on that output returns `[5e-9, 15e-9]` — `apply_constraints` is
not idempotent. -/
theorem C7_idempotent_without_constraints_cex :
    applyConstraintsA qpowZ [(0, 1), (0, 1)] csEq none [7 / 10 ^ 9, 0]
      = .ok (some ([7 / 10 ^ 9], [21 / 10 ^ 9]), [5 / 10 ^ 9, 20 / 10 ^ 9]) ∧
    applyConstraintsA qpowZ [(0, 1), (0, 1)] csEq
        (some ([7 / 10 ^ 9], [21 / 10 ^ 9])) [5 / 10 ^ 9, 20 / 10 ^ 9]
      = .ok (some ([5 / 10 ^ 9], [15 / 10 ^ 9]), [5 / 10 ^ 9, 15 / 10 ^ 9]) ∧
    ([5 / 10 ^ 9, 20 / 10 ^ 9] : List ℚ) ≠ [5 / 10 ^ 9, 15 / 10 ^ 9] := by
  refine ⟨?_, ?_, ?_⟩
  · norm_num [applyConstraintsA, csEq, evaluate_all_constraints, evalConstraint,
      gatherSources, okOr, CompiledExpression.evaluate, runInsts, stepInst, binApp,
      pushV, applyResultsA, rustClamp, sourceKey, gridRoundA, rustRound, rustRoundZ,
      SKY130_GRID_INV, SKY130_GRID_SIZE, Bind.bind, Except.bind, pure, Except.pure,
      List.range, List.range.loop, STACK_CAP, Except.map, List.zip, List.zipWith,
      List.filterMap]
  · norm_num [applyConstraintsA, csEq, evaluate_all_constraints, evalConstraint,
      gatherSources, okOr, CompiledExpression.evaluate, runInsts, stepInst, binApp,
      pushV, applyResultsA, rustClamp, sourceKey, gridRoundA, rustRound, rustRoundZ,
      SKY130_GRID_INV, SKY130_GRID_SIZE, Bind.bind, Except.bind, pure, Except.pure,
      List.range, List.range.loop, STACK_CAP, Except.map, List.zip, List.zipWith,
      List.filterMap]
  · norm_num


theorem get?_set_ne {α : Type} :
    ∀ (l : List α) (n m : Nat) (v : α), n ≠ m → (l.set n v).get? m = l.get? m := by
  intro l
  induction l with
  | nil => intro n m v _; simp
  | cons a l ih =>
    intro n m v hnm
    cases n with
    | zero =>
      cases m with
      | zero => exact absurd rfl hnm
      | succ m => simp [List.set]
    | succ n =>
      cases m with
      | zero => simp [List.set]
      | succ m => simpa [List.set] using ih n m v (by omega)

theorem gatherSources_congr {params params0 : List ℚ} :
    ∀ (idxs : List Nat), (∀ i ∈ idxs, params.get? i = params0.get? i) →
      gatherSources params idxs = gatherSources params0 idxs := by
  intro idxs
  induction idxs with
  | nil => intro _; rfl
  | cons i rest ih =>
    intro h
    unfold gatherSources
    rw [h i (by simp), ih (fun j hj => h j (by simp [hj]))]

theorem evalConstraint_congr {powFn : ℚ → ℚ → ℚ} {params params0 : List ℚ}
    {c : ConstraintData}
    (h : ∀ i ∈ c.source_indices, params.get? i = params0.get? i) :
    evalConstraint powFn params c = evalConstraint powFn params0 c := by
  unfold evalConstraint
  rw [gatherSources_congr c.source_indices h]

theorem applyAB_aligned (powFn : ℚ → ℚ → ℚ) (bounds : List (ℚ × ℚ)) (params0 : List ℚ) :
    ∀ (cs : List ConstraintData) (results params out : List ℚ),
      (∀ c ∈ cs, c.relationship = .equals) →
      (∀ c ∈ cs, ∀ i ∈ c.source_indices, params.get? i = params0.get? i) →
      (∀ c ∈ cs, ∀ c2 ∈ cs, ∀ i ∈ c2.source_indices, i ≠ c.target_idx) →
      evaluate_all_constraints powFn cs params0 = .ok results →
      applyResultsA bounds (cs.zip results) params = .ok out →
      List.foldlM (applyOneB powFn bounds) params cs = .ok out := by
  intro cs
  induction cs with
  | nil =>
    intro results params out _ _ _ _ happ
    rw [show (([] : List ConstraintData).zip results) = [] from rfl] at happ
    have h0 : applyResultsA bounds [] params = .ok params := rfl
    rw [h0] at happ
    rw [List.foldlM_nil]
    exact happ
  | cons c rest ih =>
    intro results params out heq hsrc hnost heval happ
    simp only [evaluate_all_constraints] at heval
    obtain ⟨r, hr, h2⟩ := except_bind_ok heval
    obtain ⟨rs, hrs, h3⟩ := except_bind_ok h2
    have hres : r :: rs = results := (Except.ok.injEq _ _).mp h3
    subst hres
    rw [show ((c :: rest).zip (r :: rs)) = (c, r) :: rest.zip rs from rfl] at happ
    simp only [applyResultsA] at happ
    obtain ⟨b, hb', h4⟩ := except_bind_ok happ
    have hb : bounds.get? c.target_idx = some b := by
      cases hbg : bounds.get? c.target_idx with
      | none => rw [hbg] at hb'; exact absurd hb' (by simp [okOr])
      | some b2 =>
          rw [hbg] at hb'
          have : b2 = b := by simpa [okOr] using hb'
          rw [this]
    obtain ⟨current, hc', h5⟩ := except_bind_ok h4
    have hcur : params.get? c.target_idx = some current := by
      cases hcg : params.get? c.target_idx with
      | none => rw [hcg] at hc'; exact absurd hc' (by simp [okOr])
      | some v2 =>
          rw [hcg] at hc'
          have : v2 = current := by simpa [okOr] using hc'
          rw [this]
    have hrel : c.relationship = RelationshipType.equals := heq c (by simp)
    have h5e : applyResultsA bounds (rest.zip rs)
        (params.set c.target_idx (rustClamp r b.1 b.2)) = .ok out := by
      rw [hrel] at h5
      exact h5
    have hev : evalConstraint powFn params c = .ok r := by
      rw [evalConstraint_congr (hsrc c (by simp))]
      exact hr
    have hstep : applyOneB powFn bounds params c =
        .ok (params.set c.target_idx (rustClamp r b.1 b.2)) := by
      unfold applyOneB
      rw [hev, hb, hcur]
      simp only [okOr, Bind.bind, Except.bind, hrel, pure, Except.pure]
    rw [List.foldlM_cons, hstep]
    simp only [Bind.bind, Except.bind]
    refine ih rs (params.set c.target_idx (rustClamp r b.1 b.2)) out
      (fun c2 h2 => heq c2 (by simp [h2]))
      (fun c2 hm i hi => ?_)
      (fun c2 h2 c3 h3 i hi => hnost c2 (by simp [h2]) c3 (by simp [h3]) i hi)
      hrs h5e
    have hne : i ≠ c.target_idx :=
      hnost c (by simp) c2 (by simp [hm]) i hi
    rw [get?_set_ne params c.target_idx i _ (fun he => hne he.symm)]
    exact hsrc c2 (by simp [hm]) i hi

/-- C9 (amended): the two `apply_constraints` implementations produce the same
output vector for every problem in which each constraint has relationship
`Equals` and no constraint source parameter is the target of any constraint,
starting from an empty cache.  In general they differ — the optimization tree
evaluates all constraints against the incoming vector and clamps the target of
an already-satisfied non-`Equals` constraint to its bounds, while the
optimizer tree evaluates sequentially against the updated vector and leaves
satisfied targets untouched (see the counterexample). -/
theorem C9_projection_impls_equivalent :
    ∀ (powFn : ℚ → ℚ → ℚ) (bounds : List (ℚ × ℚ)) (cs : List ConstraintData)
      (params : List ℚ) (cache2 : Option (List ℚ × List ℚ)) (out : List ℚ),
      (∀ c ∈ cs, c.relationship = .equals) →
      noSourceIsTarget cs →
      applyConstraintsA powFn bounds cs none params = .ok (cache2, out) →
      applyConstraintsB powFn bounds cs params = .ok out := by
  intro powFn bounds cs params cache2 out heq hnost h
  by_cases hcs : cs = []
  · subst hcs
    rw [applyA_nil] at h
    have he := (Except.ok.injEq _ _).mp h
    have ho : params.map gridRoundA = out := congrArg Prod.snd he
    unfold applyConstraintsB
    rw [List.foldlM_nil]
    show Except.ok (params.map round_to_sky130_precision) = Except.ok out
    rw [roundB_eq_roundA, ho]
  · rw [applyA_none hcs] at h
    obtain ⟨results, hres, h2⟩ := except_bind_ok h
    obtain ⟨ps, hps, h3⟩ := except_bind_ok h2
    have he := (Except.ok.injEq _ _).mp h3
    have hout : ps.map gridRoundA = out := congrArg Prod.snd he
    have hB := applyAB_aligned powFn bounds params cs results params ps heq
      (fun c hc i hi => rfl) hnost hres hps
    unfold applyConstraintsB
    rw [hB]
    simp only [Bind.bind, Except.bind]
    show Except.ok (ps.map round_to_sky130_precision) = Except.ok out
    rw [roundB_eq_roundA, hout]

set_option maxRecDepth 10000 in
/-- C9 witness: both implementations map `[7e-9, 0]` to `[5e-9, 20e-9]` under
the single `Equals` constraint `p1 == 3*p0`. -/
theorem C9_projection_impls_equivalent_witness :
    applyConstraintsB qpowZ [(0, 1), (0, 1)] csEq [7 / 10 ^ 9, 0]
      = .ok [5 / 10 ^ 9, 20 / 10 ^ 9] :=
  C9_projection_impls_equivalent qpowZ [(0, 1), (0, 1)] csEq [7 / 10 ^ 9, 0]
    (some ([7 / 10 ^ 9], [21 / 10 ^ 9])) [5 / 10 ^ 9, 20 / 10 ^ 9]
    (by decide) (by decide)
    (by norm_num [applyConstraintsA, csEq, evaluate_all_constraints, evalConstraint,
      gatherSources, okOr, CompiledExpression.evaluate, runInsts, stepInst, binApp,
      pushV, applyResultsA, rustClamp, sourceKey, gridRoundA, rustRound, rustRoundZ,
      SKY130_GRID_INV, SKY130_GRID_SIZE, Bind.bind, Except.bind, pure, Except.pure,
      List.range, List.range.loop, STACK_CAP, Except.map, List.zip, List.zipWith,
      List.filterMap])

set_option maxRecDepth 10000 in
/-- C9 counterexample: with the already-satisfied constraint `p1 >= p0` and a
target value `5` outside its bounds `[0, 1]`, the optimization implementation
clamps the target (output `[0, 1]`) while the optimizer implementation leaves
it untouched (output `[0, 5]`): the implementations are not observationally
equivalent. -/
theorem C9_projection_impls_equivalent_cex :
    applyConstraintsA qpowZ [(0, 1), (0, 1)] csGe none [0, 5]
      = .ok (some ([0], [0]), [0, 1]) ∧
    applyConstraintsB qpowZ [(0, 1), (0, 1)] csGe [0, 5] = .ok [0, 5] ∧
    ([0, 1] : List ℚ) ≠ [0, 5] := by
  refine ⟨?_, ?_, ?_⟩
  · with_unfolding_all decide
  · with_unfolding_all decide
  · with_unfolding_all decide

theorem lineMetric_absent {line : List Char} {t : Target}
    (h : containsSub (rustTrim line) (t.metric.data.map Char.toLower) = false) :
    lineMetric line t = none := by
  simp [lineMetric, h]

theorem scanFold_id (t : Target) :
    ∀ (lines : List (List Char)), (∀ line ∈ lines, lineMetric line t = none) →
    ∀ acc : Option ℚ,
      lines.foldl
        (fun acc line =>
          match lineMetric line t with
          | some q => some q
          | none => acc)
        acc = acc := by
  intro lines
  induction lines with
  | nil => intro _ acc; rfl
  | cons l ls ih =>
    intro h acc
    rw [List.foldl_cons]
    have hl := h l (by simp)
    simp only [hl]
    exact ih (fun x hx => h x (by simp [hx])) acc

theorem scanValue_absent {lines : List (List Char)} {t : Target}
    (h : metricAbsent lines t) : scanValue lines t = none := by
  unfold scanValue
  exact scanFold_id t lines (fun line hl => lineMetric_absent (h line hl)) none

set_option maxRecDepth 10000 in
/-- C3 (amended): a target whose metric is absent from the captured output
gets the penalty value `value*0.1` (Min), `value*10` (Max), `value*2`
(Target/Exact); a missing Max target with `value=60, weight=1` yields the
metric `600` and contributes `max(0, 60-600)*1 = 0` to cost; a missing Min
target with positive value yields the metric `0.1*value`, which satisfies the
Min bound and also contributes `0` to the cost (not `0.9*value` as claimed —
see the counterexample). -/
theorem C3_missing_metric_penalty :
    (∀ (lines : List (List Char)) (t : Target), metricAbsent lines t →
      extract_metric_value lines t = penaltyValue t)
    ∧ (∀ t : Target, t.mode = .min → penaltyValue t = t.value * (1 / 10))
    ∧ (∀ t : Target, t.mode = .max → penaltyValue t = t.value * 10)
    ∧ (∀ t : Target, t.mode = .target → penaltyValue t = t.value * 2)
    ∧ extract_metric_value [] tMax = 600
    ∧ costContribution tMax 600 = 0
    ∧ tMax.compute_cost 600 = 0
    ∧ (∀ t : Target, t.mode = .min → 0 < t.value →
        costContribution t (t.value * (1 / 10)) = 0 ∧
        t.compute_cost (t.value * (1 / 10)) = 0) := by
  refine ⟨?_, ?_, ?_, ?_, ?_, ?_, ?_, ?_⟩
  · intro lines t h
    unfold extract_metric_value
    rw [scanValue_absent h]
    rfl
  · intro t h; unfold penaltyValue; rw [h]
  · intro t h; unfold penaltyValue; rw [h]
  · intro t h; unfold penaltyValue; rw [h]
  · with_unfolding_all decide
  · with_unfolding_all decide
  · with_unfolding_all decide
  · intro t hm hv
    have hlt : t.value * (1 / 10) < t.value := by linarith
    constructor
    · unfold costContribution
      rw [hm]
      rw [if_neg (not_le.mpr hlt), zero_mul]
    · unfold Target.compute_cost
      rw [hm]
      rw [if_pos hlt, zero_mul]

set_option maxRecDepth 4000 in
/-- C3 witness: penalty substitution at a concrete non-matching output. -/
theorem C3_missing_metric_penalty_witness :
    extract_metric_value [['x']] tMax = penaltyValue tMax :=
  C3_missing_metric_penalty.1 [['x']] tMax (by with_unfolding_all decide)

set_option maxRecDepth 4000 in
/-- C3 counterexample: a missing `Min` target with `value=60, weight=1` gets
metric `6 = 0.1*60` and adds `0` error to the cost, not `0.9*60 = 54`. -/
theorem C3_missing_metric_penalty_cex :
    extract_metric_value [] tMin = 6 ∧
    costContribution tMin 6 = 0 ∧
    tMin.compute_cost 6 = 0 ∧
    ¬ ((0 : ℚ) = (9 / 10) * 60) := by
  refine ⟨?_, ?_, ?_, ?_⟩
  · with_unfolding_all decide
  · with_unfolding_all decide
  · with_unfolding_all decide
  · with_unfolding_all decide

/-- C8 (amended): the `select_solver` of the optimization tree implements the
auto-selection table of §4.7.4 for every well-formed input (`bounds` of
length `n ≥ 1`); the `select_solver` of the optimizer tree deviates from the
table (Newton already for `n ≤ 3` with average range below `1.0`, PSO with
population `15+2n` for unconstrained `4 ≤ n ≤ 8` with CV below `1.0`, CMA-ES
already for CV above `1.0` — see the counterexample). -/
theorem C8_selector_implements_table :
    ∀ (n : Nat) (bounds : List (ℚ × ℚ)) (hc : Bool),
      bounds.length = n → 1 ≤ n →
      selectSolverA n bounds hc = selectorTable n bounds := by
  intro n bounds hc hlen hn
  unfold selectSolverA selectorTable
  by_cases h1 : avgRange n bounds < 1 / 10
  · have h2 : avgRange n bounds < 1 := lt_trans h1 (by norm_num)
    by_cases h3 : n ≤ 2
    · rw [if_pos ⟨h3, h2, h1⟩, if_pos ⟨h3, h1⟩]
    · have hA : ¬ (n ≤ 2 ∧ avgRange n bounds < 1 ∧ avgRange n bounds < 1 / 10) :=
        fun hx => h3 hx.1
      have hT : ¬ (n ≤ 2 ∧ avgRange n bounds < 1 / 10) := fun hx => h3 hx.1
      rw [if_neg hA, if_neg hT]
      by_cases h4 : n ≤ 8
      · rw [if_pos h4, if_pos h4, Nat.mul_comm n 3]
      · rw [if_neg h4, if_neg h4]
  · have hA : ¬ (n ≤ 2 ∧ avgRange n bounds < 1 ∧ avgRange n bounds < 1 / 10) :=
      fun hx => h1 hx.2.2
    have hT : ¬ (n ≤ 2 ∧ avgRange n bounds < 1 / 10) := fun hx => h1 hx.2
    rw [if_neg hA, if_neg hT]
    by_cases h4 : n ≤ 8
    · rw [if_pos h4, if_pos h4, Nat.mul_comm n 3]
    · rw [if_neg h4, if_neg h4]

/-- C8 witness: the table agreement at `n = 1`, bounds `[(0, 1/2)]`. -/
theorem C8_selector_implements_table_witness :
    selectSolverA 1 [(0, 1 / 2)] false = selectorTable 1 [(0, 1 / 2)] :=
  C8_selector_implements_table 1 [(0, 1 / 2)] false (by decide) (by decide)

/-- C8 counterexample: at `n = 1` with bounds `[(0, 1/2)]` the optimizer-tree
`select_solver` returns Newton (its first arm fires for `n ≤ 3` with average
range below `1.0`) while the table of §4.7.4 prescribes PSO with population
`min(10+3, 30) = 13`. -/
theorem C8_selector_implements_table_cex :
    selectSolverB 1 [(0, 1 / 2)] false = .newton ∧
    selectorTable 1 [(0, 1 / 2)] = .pso 13 ∧
    SolverChoice.newton ≠ SolverChoice.pso 13 := by
  refine ⟨?_, ?_, ?_⟩
  · with_unfolding_all decide
  · with_unfolding_all decide
  · with_unfolding_all decide


theorem getD_set_self {α : Type} (d : α) :
    ∀ (l : List α) (i : Nat) (v : α), i < l.length → (l.set i v).getD i d = v := by
  intro l
  induction l with
  | nil => intro i v h; simp at h
  | cons a t ih =>
    intro i v h
    cases i with
    | zero => rfl
    | succ i => exact ih i v (by simpa using h)

theorem getD_set_ne {α : Type} (d : α) :
    ∀ (l : List α) (i j : Nat) (v : α), i ≠ j → (l.set i v).getD j d = l.getD j d := by
  intro l
  induction l with
  | nil => intro i j v _; simp [List.set]
  | cons a t ih =>
    intro i j v hne
    cases i with
    | zero =>
      cases j with
      | zero => exact absurd rfl hne
      | succ j => simp [List.set, List.getD]
    | succ i =>
      cases j with
      | zero => simp [List.set, List.getD]
      | succ j => simpa [List.set, List.getD] using ih i j v (by omega)

theorem getD_set_true_mono {l : List Bool} {i u : Nat}
    (h : l.getD u false = true) : (l.set i true).getD u false = true := by
  by_cases he : i = u
  · subst he
    by_cases hl : i < l.length
    · rw [getD_set_self false l i true hl]
    · rw [List.set_eq_of_length_le (by omega)]
      exact h
  · rw [getD_set_ne false l i u true he]
    exact h

theorem getD_default_of_le {α : Type} (d : α) :
    ∀ (l : List α) (i : Nat), l.length ≤ i → l.getD i d = d := by
  intro l
  induction l with
  | nil => intro i _; simp [List.getD]
  | cons a t ih =>
    intro i h
    cases i with
    | zero => simp at h
    | succ i => simpa [List.getD] using ih i (by simpa using h)

theorem countFalse_le_length : ∀ l : List Bool, countFalse l ≤ l.length := by
  intro l
  induction l with
  | nil => simp [countFalse]
  | cons b t ih =>
    simp only [countFalse, List.length_cons]
    cases b <;> simp <;> omega

theorem countFalse_set_true_le :
    ∀ (l : List Bool) (i : Nat), countFalse (l.set i true) ≤ countFalse l := by
  intro l
  induction l with
  | nil => intro i; simp [List.set]
  | cons b t ih =>
    intro i
    cases i with
    | zero =>
      simp only [List.set, countFalse]
      cases b <;> simp <;> omega
    | succ i =>
      have := ih i
      show countFalse (b :: t.set i true) ≤ countFalse (b :: t)
      simp only [countFalse]
      omega

theorem countFalse_set_true_lt :
    ∀ (l : List Bool) (i : Nat), i < l.length → l.getD i false = false →
      countFalse (l.set i true) + 1 ≤ countFalse l := by
  intro l
  induction l with
  | nil => intro i h _; simp at h
  | cons b t ih =>
    intro i hi hb
    cases i with
    | zero =>
      have hb0 : b = false := hb
      subst hb0
      show (0 + countFalse t) + 1 ≤ 1 + countFalse t
      omega
    | succ i =>
      simp only [List.getD] at hb
      have := ih i (by simpa using hi) hb
      show countFalse (b :: t.set i true) + 1 ≤ countFalse (b :: t)
      simp only [countFalse]
      omega

theorem some_ok_inj {ε α : Type} {a b : α}
    (h : (some (Except.ok a) : Option (Except ε α)) = some (.ok b)) : a = b := by
  injection h with h
  injection h

theorem dfs_mono (g : List (List Nat)) (params : List Parameter) :
    ∀ (fuel : Nat) (task : Nat ⊕ (Nat × List Nat)) (st st2 : DfsState),
      dfsGo g params fuel task st = some (.ok st2) →
      (∀ u, st.visited.getD u false = true → st2.visited.getD u false = true)
      ∧ st2.visited.length = st.visited.length
      ∧ st2.rec_stack.length = st.rec_stack.length
      ∧ countFalse st2.visited ≤ countFalse st.visited := by
  intro fuel
  induction fuel with
  | zero => intro task st st2 h; simp [dfsGo] at h
  | succ fuel ih =>
    intro task st st2 h
    rcases task with node | ⟨node, l⟩
    · simp only [dfsGo] at h
      cases hrec : dfsGo g params fuel (.inr (node, g.getD node []))
          ⟨st.visited.set node true, st.rec_stack.set node true⟩ with
      | none => rw [hrec] at h; exact Option.noConfusion h
      | some r =>
        cases r with
        | error m => rw [hrec] at h; simp at h
        | ok stm =>
          rw [hrec] at h
          have he := some_ok_inj h
          obtain ⟨m1, m2, m3, m4⟩ := ih (.inr (node, g.getD node []))
            ⟨st.visited.set node true, st.rec_stack.set node true⟩ stm hrec
          subst he
          refine ⟨?_, ?_, ?_, ?_⟩
          · intro u hu
            exact m1 u (getD_set_true_mono hu)
          · simpa [List.length_set] using m2
          · simpa [List.length_set] using m3
          · exact le_trans m4 (countFalse_set_true_le _ _)
    rcases l with _ | ⟨nb, rest⟩
    · simp only [dfsGo] at h
      have he := some_ok_inj h
      subst he
      exact ⟨fun u hu => hu, rfl, rfl, le_refl _⟩
    · simp only [dfsGo] at h
      by_cases hv : st.visited.getD nb false = false
      · rw [if_pos hv] at h
        cases hrec : dfsGo g params fuel (.inl nb) st with
        | none => rw [hrec] at h; exact Option.noConfusion h
        | some r =>
          cases r with
          | error m => rw [hrec] at h; simp at h
          | ok stm =>
            rw [hrec] at h
            obtain ⟨m1, m2, m3, m4⟩ := ih (.inl nb) st stm hrec
            obtain ⟨k1, k2, k3, k4⟩ := ih (.inr (node, rest)) stm st2 h
            exact ⟨fun u hu => k1 u (m1 u hu), k2.trans m2, k3.trans m3, le_trans k4 m4⟩
      · rw [if_neg hv] at h
        by_cases hg : st.rec_stack.getD nb false = true
        · rw [if_pos hg] at h
          simp at h
        · rw [if_neg hg] at h
          exact ih (.inr (node, rest)) st st2 h

theorem dfs_marks (g : List (List Nat)) (params : List Parameter) (fuel : Nat)
    (node : Nat) (st st2 : DfsState)
    (h : dfsGo g params fuel (.inl node) st = some (.ok st2))
    (hn : node < st.visited.length) : st2.visited.getD node false = true := by
  match fuel with
  | 0 => simp [dfsGo] at h
  | fuel + 1 =>
    simp only [dfsGo] at h
    cases hrec : dfsGo g params fuel (.inr (node, g.getD node []))
        ⟨st.visited.set node true, st.rec_stack.set node true⟩ with
    | none => rw [hrec] at h; exact Option.noConfusion h
    | some r =>
      cases r with
      | error m => rw [hrec] at h; simp at h
      | ok stm =>
        rw [hrec] at h
        have he := some_ok_inj h
        obtain ⟨m1, _, _, _⟩ := dfs_mono g params fuel (.inr (node, g.getD node []))
          ⟨st.visited.set node true, st.rec_stack.set node true⟩ stm hrec
        subst he
        exact m1 node (getD_set_self false st.visited node true hn)

theorem dfs_dec (g : List (List Nat)) (params : List Parameter) (fuel : Nat)
    (node : Nat) (st st2 : DfsState)
    (h : dfsGo g params fuel (.inl node) st = some (.ok st2))
    (hn : node < st.visited.length) (hv : st.visited.getD node false = false) :
    countFalse st2.visited + 1 ≤ countFalse st.visited := by
  match fuel with
  | 0 => simp [dfsGo] at h
  | fuel + 1 =>
    simp only [dfsGo] at h
    cases hrec : dfsGo g params fuel (.inr (node, g.getD node []))
        ⟨st.visited.set node true, st.rec_stack.set node true⟩ with
    | none => rw [hrec] at h; exact Option.noConfusion h
    | some r =>
      cases r with
      | error m => rw [hrec] at h; simp at h
      | ok stm =>
        rw [hrec] at h
        have he := some_ok_inj h
        obtain ⟨_, _, _, m4⟩ := dfs_mono g params fuel (.inr (node, g.getD node []))
          ⟨st.visited.set node true, st.rec_stack.set node true⟩ stm hrec
        subst he
        have hlt := countFalse_set_true_lt st.visited node hn hv
        have hm : countFalse stm.visited ≤ countFalse (st.visited.set node true) := m4
        show countFalse stm.visited + 1 ≤ countFalse st.visited
        omega

theorem pathAppendEdge {g : List (List Nat)} {a b c : Nat}
    (hp : PathG g a b) (he : Edge g b c) : PathG g a c := by
  induction hp with
  | refl u => exact PathG.step he (PathG.refl c)
  | step e _ ih => exact PathG.step e (ih he)

theorem cycle_of_path_edge {g : List (List Nat)} {a b : Nat}
    (hp : PathG g a b) (he : Edge g b a) : onCycle g a := by
  cases hp with
  | refl => exact ⟨a, he, PathG.refl a⟩
  | step e p => exact ⟨_, e, pathAppendEdge p he⟩

theorem bool_false_of_not_true {x : Bool} (h : ¬ x = true) : x = false := by
  cases x
  · rfl
  · exact absurd rfl h

theorem gray_false_of_unvisited {st : DfsState} {u : Nat} (hgv : GrayVis st)
    (hv : st.visited.getD u false = false) : st.rec_stack.getD u false = false := by
  cases hg : st.rec_stack.getD u false
  · rfl
  · rw [hgv u hg] at hv
    exact absurd hv (by simp)

theorem dfs_grayEq (g : List (List Nat)) (params : List Parameter) (n : Nat)
    (hE : edgesBelow g n) :
    ∀ fuel : Nat,
      (∀ (node : Nat) (st st2 : DfsState), node < n → StLen st n → GrayVis st →
        dfsGo g params fuel (.inl node) st = some (.ok st2) →
        GrayVis st2 ∧ ∀ u, st2.rec_stack.getD u false
          = if u = node then false else st.rec_stack.getD u false)
      ∧ (∀ (node : Nat) (l : List Nat) (st st2 : DfsState),
        (∀ nb ∈ l, Edge g node nb) → StLen st n → GrayVis st →
        dfsGo g params fuel (.inr (node, l)) st = some (.ok st2) →
        GrayVis st2 ∧ ∀ u, st2.rec_stack.getD u false = st.rec_stack.getD u false) := by
  intro fuel
  induction fuel with
  | zero =>
    constructor
    · intro node st st2 _ _ _ h; simp [dfsGo] at h
    · intro node l st st2 _ _ _ h; simp [dfsGo] at h
  | succ fuel ih =>
    obtain ⟨ihA, ihB⟩ := ih
    constructor
    · intro node st st2 hn hlen hgv h
      simp only [dfsGo] at h
      cases hrec : dfsGo g params fuel (.inr (node, g.getD node []))
          ⟨st.visited.set node true, st.rec_stack.set node true⟩ with
      | none => rw [hrec] at h; exact Option.noConfusion h
      | some r =>
        cases r with
        | error m => rw [hrec] at h; simp at h
        | ok stm =>
          rw [hrec] at h
          have he := some_ok_inj h
          have hlen1 : StLen ⟨st.visited.set node true, st.rec_stack.set node true⟩ n :=
            ⟨by simpa [List.length_set] using hlen.1, by simpa [List.length_set] using hlen.2⟩
          have hgv1 : GrayVis ⟨st.visited.set node true, st.rec_stack.set node true⟩ := by
            intro u hu
            by_cases hune : u = node
            · subst hune
              exact getD_set_self false st.visited u true (by rw [hlen.1]; exact hn)
            · have hu2 : st.rec_stack.getD u false = true := by
                rwa [getD_set_ne false st.rec_stack node u true
                  (fun hh => hune hh.symm)] at hu
              exact getD_set_true_mono (hgv u hu2)
          obtain ⟨hg2, hr2⟩ := ihB node (g.getD node [])
            ⟨st.visited.set node true, st.rec_stack.set node true⟩ stm
            (fun nb hnb => hnb) hlen1 hgv1 hrec
          obtain ⟨_, _, hlm, _⟩ := dfs_mono g params fuel (.inr (node, g.getD node []))
            ⟨st.visited.set node true, st.rec_stack.set node true⟩ stm hrec
          have hlenm : stm.rec_stack.length = n := by
            rw [hlm]; simpa [List.length_set] using hlen.2
          subst he
          constructor
          · intro u hu
            by_cases hune : u = node
            · subst hune
              rw [getD_set_self false stm.rec_stack u false (by omega)] at hu
              exact absurd hu (by simp)
            · have hu2 : stm.rec_stack.getD u false = true := by
                rwa [getD_set_ne false stm.rec_stack node u false
                  (fun hh => hune hh.symm)] at hu
              exact hg2 u hu2
          · intro u
            by_cases hune : u = node
            · subst hune
              rw [if_pos rfl]
              exact getD_set_self false stm.rec_stack u false (by omega)
            · rw [if_neg hune,
                getD_set_ne false stm.rec_stack node u false (fun hh => hune hh.symm),
                hr2 u,
                getD_set_ne false st.rec_stack node u true (fun hh => hune hh.symm)]
    · intro node l st st2 hadj hlen hgv h
      match l with
      | [] =>
        simp only [dfsGo] at h
        have he := some_ok_inj h
        subst he
        exact ⟨hgv, fun u => rfl⟩
      | nb :: rest =>
        simp only [dfsGo] at h
        by_cases hv : st.visited.getD nb false = false
        · rw [if_pos hv] at h
          cases hrec : dfsGo g params fuel (.inl nb) st with
          | none => rw [hrec] at h; exact Option.noConfusion h
          | some r =>
            cases r with
            | error m => rw [hrec] at h; simp at h
            | ok stm =>
              rw [hrec] at h
              have hnb : nb < n := hE node nb (hadj nb (by simp))
              obtain ⟨hgA, hrA⟩ := ihA nb st stm hnb hlen hgv hrec
              obtain ⟨_, hlv, hlr, _⟩ := dfs_mono g params fuel (.inl nb) st stm hrec
              have hlenm : StLen stm n := ⟨by rw [hlv]; exact hlen.1, by rw [hlr]; exact hlen.2⟩
              obtain ⟨hgB, hrB⟩ := ihB node rest stm st2
                (fun x hx => hadj x (by simp [hx])) hlenm hgA h
              refine ⟨hgB, fun u => ?_⟩
              rw [hrB u, hrA u]
              by_cases hune : u = nb
              · subst hune
                rw [if_pos rfl]
                exact (gray_false_of_unvisited hgv hv).symm
              · rw [if_neg hune]
        · rw [if_neg hv] at h
          by_cases hg : st.rec_stack.getD nb false = true
          · rw [if_pos hg] at h
            simp at h
          · rw [if_neg hg] at h
            exact ihB node rest st st2 (fun x hx => hadj x (by simp [hx])) hlen hgv h

theorem dfs_err (g : List (List Nat)) (params : List Parameter) (n : Nat)
    (hE : edgesBelow g n) :
    ∀ fuel : Nat,
      (∀ (node : Nat) (st : DfsState) (m : String), node < n → StLen st n →
        GrayVis st → GrayInv g st node →
        dfsGo g params fuel (.inl node) st = some (.error m) →
        ∃ x, onCycle g x ∧ m = cycleMsg ((params.getD x defaultParameter).name))
      ∧ (∀ (node : Nat) (l : List Nat) (st : DfsState) (m : String),
        (∀ nb ∈ l, Edge g node nb) → StLen st n → GrayVis st → GrayInv g st node →
        dfsGo g params fuel (.inr (node, l)) st = some (.error m) →
        ∃ x, onCycle g x ∧ m = cycleMsg ((params.getD x defaultParameter).name)) := by
  intro fuel
  induction fuel with
  | zero =>
    constructor
    · intro node st m _ _ _ _ h; simp [dfsGo] at h
    · intro node l st m _ _ _ _ h; simp [dfsGo] at h
  | succ fuel ih =>
    obtain ⟨ihA, ihB⟩ := ih
    constructor
    · intro node st m hn hlen hgv hgi h
      simp only [dfsGo] at h
      cases hrec : dfsGo g params fuel (.inr (node, g.getD node []))
          ⟨st.visited.set node true, st.rec_stack.set node true⟩ with
      | none => rw [hrec] at h; exact Option.noConfusion h
      | some r =>
        cases r with
        | ok stm =>
          rw [hrec] at h
          simp at h
        | error m2 =>
          rw [hrec] at h
          have hm : m2 = m := by
            have h2 : (some (Except.error m2) : Option (Except String DfsState))
                = some (.error m) := h
            injection h2 with h3
            injection h3
          subst hm
          have hlen1 : StLen ⟨st.visited.set node true, st.rec_stack.set node true⟩ n :=
            ⟨by simpa [List.length_set] using hlen.1, by simpa [List.length_set] using hlen.2⟩
          have hgv1 : GrayVis ⟨st.visited.set node true, st.rec_stack.set node true⟩ := by
            intro u hu
            by_cases hune : u = node
            · subst hune
              exact getD_set_self false st.visited u true (by rw [hlen.1]; exact hn)
            · have hu2 : st.rec_stack.getD u false = true := by
                rwa [getD_set_ne false st.rec_stack node u true
                  (fun hh => hune hh.symm)] at hu
              exact getD_set_true_mono (hgv u hu2)
          have hgi1 : GrayInv g ⟨st.visited.set node true, st.rec_stack.set node true⟩ node := by
            intro u hu
            by_cases hune : u = node
            · subst hune; exact PathG.refl u
            · have hu2 : st.rec_stack.getD u false = true := by
                rwa [getD_set_ne false st.rec_stack node u true
                  (fun hh => hune hh.symm)] at hu
              exact hgi u hu2
          exact ihB node (g.getD node [])
            ⟨st.visited.set node true, st.rec_stack.set node true⟩ m2
            (fun nb hnb => hnb) hlen1 hgv1 hgi1 hrec
    · intro node l st m hadj hlen hgv hgi h
      match l with
      | [] => simp [dfsGo] at h
      | nb :: rest =>
        simp only [dfsGo] at h
        by_cases hv : st.visited.getD nb false = false
        · rw [if_pos hv] at h
          cases hrec : dfsGo g params fuel (.inl nb) st with
          | none => rw [hrec] at h; exact Option.noConfusion h
          | some r =>
            cases r with
            | error m2 =>
              rw [hrec] at h
              have hm : m2 = m := by
                have h2 : (some (Except.error m2) : Option (Except String DfsState))
                    = some (.error m) := h
                injection h2 with h3
                injection h3
              subst hm
              have hnb : nb < n := hE node nb (hadj nb (by simp))
              have hginb : GrayInv g st nb := fun u hu =>
                pathAppendEdge (hgi u hu) (hadj nb (by simp))
              exact ihA nb st m2 hnb hlen hgv hginb hrec
            | ok stm =>
              rw [hrec] at h
              have hnb : nb < n := hE node nb (hadj nb (by simp))
              obtain ⟨hgA, hrA⟩ := (dfs_grayEq g params n hE fuel).1 nb st stm hnb hlen hgv hrec
              obtain ⟨_, hlv, hlr, _⟩ := dfs_mono g params fuel (.inl nb) st stm hrec
              have hlenm : StLen stm n :=
                ⟨by rw [hlv]; exact hlen.1, by rw [hlr]; exact hlen.2⟩
              have hgim : GrayInv g stm node := by
                intro u hu
                rw [hrA u] at hu
                by_cases hune : u = nb
                · rw [if_pos hune] at hu
                  exact absurd hu (by simp)
                · rw [if_neg hune] at hu
                  exact hgi u hu
              exact ihB node rest stm m
                (fun x hx => hadj x (by simp [hx])) hlenm hgA hgim h
        · rw [if_neg hv] at h
          by_cases hg : st.rec_stack.getD nb false = true
          · rw [if_pos hg] at h
            have hm : cycleMsg ((params.getD nb defaultParameter).name) = m := by
              have h2 : (some (Except.error (cycleMsg ((params.getD nb defaultParameter).name)))
                  : Option (Except String DfsState)) = some (.error m) := h
              injection h2 with h3
              injection h3
            refine ⟨nb, ?_, hm.symm⟩
            exact cycle_of_path_edge (hgi nb hg) (hadj nb (by simp))
          · rw [if_neg hg] at h
            exact ihB node rest st m (fun x hx => hadj x (by simp [hx])) hlen hgv hgi h

theorem foldr_max_le_mem : ∀ (xs : List Nat), ∀ x ∈ xs, x ≤ xs.foldr max 0 := by
  intro xs
  induction xs with
  | nil => intro x hx; simp at hx
  | cons a t ih =>
    intro x hx
    rcases List.mem_cons.mp hx with h | h
    · subst h
      exact le_max_left _ _
    · exact le_trans (ih x h) (le_max_right _ _)

theorem dfsK_bound (g : List (List Nat)) :
    ∀ u, (g.getD u []).length + 2 ≤ dfsK g := by
  intro u
  unfold dfsK
  by_cases hu : u < g.length
  · have hm : (g.getD u []).length ∈ g.map List.length := by
      refine List.mem_map.mpr ⟨g.getD u [], ?_, rfl⟩
      have : g.getD u [] = g.get ⟨u, hu⟩ := by
        rw [List.getD_eq_getElem?_getD, List.getElem?_eq_getElem hu]
        rfl
      rw [this]
      exact List.get_mem g u hu
    have := foldr_max_le_mem (g.map List.length) _ hm
    omega
  · rw [getD_default_of_le [] g u (by omega)]
    simp

theorem dfs_fuelSuff (g : List (List Nat)) (params : List Parameter) (n K : Nat)
    (hE : edgesBelow g n) (hK : ∀ u, (g.getD u []).length + 2 ≤ K) :
    ∀ fuel : Nat,
      (∀ (node : Nat) (st : DfsState), node < n → st.visited.getD node false = false →
        StLen st n → countFalse st.visited * K + 1 ≤ fuel →
        dfsGo g params fuel (.inl node) st ≠ none)
      ∧ (∀ (node : Nat) (l : List Nat) (st : DfsState),
        (∀ nb ∈ l, Edge g node nb) → StLen st n →
        countFalse st.visited * K + l.length + 1 ≤ fuel →
        dfsGo g params fuel (.inr (node, l)) st ≠ none) := by
  intro fuel
  induction fuel with
  | zero =>
    constructor
    · intro node st _ _ _ hf; omega
    · intro node l st _ _ hf; omega
  | succ fuel ih =>
    obtain ⟨ihA, ihB⟩ := ih
    constructor
    · intro node st hn hv hlen hf
      have hK2 : 2 ≤ K := le_trans (by omega) (hK node)
      simp only [dfsGo]
      have hcf1 : countFalse (st.visited.set node true) + 1 ≤ countFalse st.visited :=
        countFalse_set_true_lt st.visited node (by rw [hlen.1]; exact hn) hv
      have hadj := hK node
      have hinner : countFalse (st.visited.set node true) * K + (g.getD node []).length + 1
          ≤ fuel := by
        have h1 : (countFalse (st.visited.set node true) + 1) * K ≤ countFalse st.visited * K :=
          Nat.mul_le_mul_right K hcf1
        have h2 : countFalse (st.visited.set node true) * K + K
            = (countFalse (st.visited.set node true) + 1) * K := by ring
        omega
      have := ihB node (g.getD node [])
        ⟨st.visited.set node true, st.rec_stack.set node true⟩
        (fun nb hnb => hnb)
        ⟨by simpa [List.length_set] using hlen.1, by simpa [List.length_set] using hlen.2⟩
        hinner
      cases hrec : dfsGo g params fuel (.inr (node, g.getD node []))
          ⟨st.visited.set node true, st.rec_stack.set node true⟩ with
      | none => exact absurd hrec this
      | some r =>
        cases r with
        | error m => simp
        | ok stm => simp
    · intro node l st hadj hlen hf
      match l with
      | [] =>
        simp only [dfsGo]
        simp
      | nb :: rest =>
        simp only [dfsGo]
        by_cases hv : st.visited.getD nb false = false
        · rw [if_pos hv]
          have hnb : nb < n := hE node nb (hadj nb (by simp))
          have hfA : countFalse st.visited * K + 1 ≤ fuel := by
            simp only [List.length_cons] at hf
            omega
          have hA := ihA nb st hnb hv hlen hfA
          cases hrec : dfsGo g params fuel (.inl nb) st with
          | none => exact absurd hrec hA
          | some r =>
            cases r with
            | error m => simp
            | ok stm =>
              obtain ⟨_, hlv, hlr, _⟩ := dfs_mono g params fuel (.inl nb) st stm hrec
              have hdec := dfs_dec g params fuel nb st stm hrec
                (by rw [hlen.1]; exact hnb) hv
              have hlenm : StLen stm n :=
                ⟨by rw [hlv]; exact hlen.1, by rw [hlr]; exact hlen.2⟩
              have hfB : countFalse stm.visited * K + rest.length + 1 ≤ fuel := by
                have h1 : (countFalse stm.visited + 1) * K ≤ countFalse st.visited * K :=
                  Nat.mul_le_mul_right K hdec
                have h2 : countFalse stm.visited * K + K = (countFalse stm.visited + 1) * K := by
                  ring
                simp only [List.length_cons] at hf
                have hK0 : 0 ≤ K := Nat.zero_le K
                omega
              exact ihB node rest stm (fun x hx => hadj x (by simp [hx])) hlenm hfB
        · rw [if_neg hv]
          by_cases hg : st.rec_stack.getD nb false = true
          · rw [if_pos hg]
            simp
          · rw [if_neg hg]
            have hfB : countFalse st.visited * K + rest.length + 1 ≤ fuel := by
              simp only [List.length_cons] at hf
              omega
            exact ihB node rest st (fun x hx => hadj x (by simp [hx])) hlen hfB

theorem append_singleton_split {α : Type} :
    ∀ (o1 : List α) (o : List α) (u x : α) (o2 : List α),
      o ++ [x] = o1 ++ u :: o2 →
      (∃ o2a, o = o1 ++ u :: o2a ∧ o2 = o2a ++ [x]) ∨ (o1 = o ∧ u = x ∧ o2 = []) := by
  intro o1
  induction o1 with
  | nil =>
    intro o u x o2 h
    cases o with
    | nil =>
      simp only [List.nil_append] at h
      injection h with h1 h2
      right
      exact ⟨rfl, h1.symm, h2.symm⟩
    | cons a t =>
      simp only [List.cons_append, List.nil_append] at h
      injection h with h1 h2
      left
      refine ⟨t, ?_, h2.symm⟩
      rw [h1]
      rfl
  | cons b o1t ih =>
    intro o u x o2 h
    cases o with
    | nil =>
      simp only [List.nil_append, List.cons_append] at h
      injection h with h1 h2
      exact absurd h2.symm (by simp)
    | cons a t =>
      simp only [List.cons_append, List.cons.injEq] at h
      obtain ⟨hab, ht⟩ := h
      rcases ih t u x o2 ht with ⟨o2a, h1, h2⟩ | ⟨h1, h2, h3⟩
      · left
        refine ⟨o2a, ?_, h2⟩
        rw [hab, h1]
        rfl
      · right
        exact ⟨by rw [hab, h1], h2, h3⟩

theorem ordOk_append {g : List (List Nat)} {o : List Nat} {x : Nat}
    (ho : ordOk g o) (hx : ∀ v, Edge g x v → v ∈ o) : ordOk g (o ++ [x]) := by
  intro o1 u o2 hsplit v he
  rcases append_singleton_split o1 o u x o2 hsplit with ⟨o2a, h1, _⟩ | ⟨h1, h2, _⟩
  · exact ho o1 u o2a h1 v he
  · subst h2
    rw [h1]
    exact hx v he

theorem path_mem_prefix {g : List (List Nat)} {o : List Nat} (ho : ordOk g o) :
    ∀ {u v : Nat}, PathG g u v → ∀ (o1 o2 : List Nat), o = o1 ++ u :: o2 →
      v ∈ o1 ∨ v = u := by
  intro u v hp
  induction hp with
  | refl w => intro o1 o2 _; right; rfl
  | step e p ih =>
    intro o1 o2 hsplit
    rename_i a w c
    have hw : w ∈ o1 := ho o1 a o2 hsplit w e
    obtain ⟨s, t, hst⟩ := List.append_of_mem hw
    have hsplit2 : o = s ++ w :: (t ++ a :: o2) := by
      rw [hsplit, hst]
      simp
    rcases ih s (t ++ a :: o2) hsplit2 with hin | heq
    · left
      rw [hst]
      exact List.mem_append.mpr (Or.inl hin)
    · left
      rw [hst, heq]
      simp
  
theorem not_mem_of_nodup_split {α : Type} {o s t : List α} {x : α}
    (hnd : o.Nodup) (h : o = s ++ x :: t) : x ∉ s := by
  subst h
  intro hx
  rcases List.nodup_append.mp hnd with ⟨_, _, hdisj⟩
  exact hdisj hx (by simp)

theorem no_cycle_of_ordOk {g : List (List Nat)} {o : List Nat}
    (ho : ordOk g o) (hnd : o.Nodup) (hall : ∀ x, onCycle g x → x ∈ o) :
    ¬ hasCycle g := by
  rintro ⟨x, hcyc⟩
  obtain ⟨y, hxy, hyx⟩ := hcyc
  have hxo : x ∈ o := hall x ⟨y, hxy, hyx⟩
  obtain ⟨s, t, hst⟩ := List.append_of_mem hxo
  have hys : y ∈ s := ho s x t hst y hxy
  obtain ⟨a, b, hab⟩ := List.append_of_mem hys
  have hsplit2 : o = a ++ y :: (b ++ x :: t) := by
    rw [hst, hab]
    simp
  rcases path_mem_prefix ho hyx a (b ++ x :: t) hsplit2 with hin | heq
  · have hxs : x ∈ s := by
      rw [hab]
      exact List.mem_append.mpr (Or.inl hin)
    exact not_mem_of_nodup_split hnd hst hxs
  · subst heq
    exact not_mem_of_nodup_split hnd hst hys

theorem blackAt_iff_of_same {st st2 : DfsState} {u : Nat}
    (hv : st2.visited.getD u false = st.visited.getD u false)
    (hr : st2.rec_stack.getD u false = st.rec_stack.getD u false) :
    blackAt st2 u ↔ blackAt st u := by
  unfold blackAt
  rw [hv, hr]

theorem dfs_topo (g : List (List Nat)) (params : List Parameter) (n : Nat)
    (hE : edgesBelow g n) :
    ∀ fuel : Nat,
      (∀ (node : Nat) (st st2 : DfsState) (o : List Nat),
        node < n → st.visited.getD node false = false → StLen st n → GrayVis st →
        Wst g st o →
        dfsGo g params fuel (.inl node) st = some (.ok st2) →
        ∃ o2, Wst g st2 o2 ∧ (∃ t2, o2 = o ++ t2) ∧ node ∈ o2)
      ∧ (∀ (node : Nat) (l : List Nat) (st st2 : DfsState) (o : List Nat),
        (∀ nb ∈ l, Edge g node nb) → StLen st n → GrayVis st → Wst g st o →
        dfsGo g params fuel (.inr (node, l)) st = some (.ok st2) →
        ∃ o2, Wst g st2 o2 ∧ (∃ t2, o2 = o ++ t2) ∧ ∀ nb ∈ l, nb ∈ o2) := by
  intro fuel
  induction fuel with
  | zero =>
    constructor
    · intro node st st2 o _ _ _ _ _ h; simp [dfsGo] at h
    · intro node l st st2 o _ _ _ _ h; simp [dfsGo] at h
  | succ fuel ih =>
    obtain ⟨ihA, ihB⟩ := ih
    constructor
    · intro node st st2 o hn hv hlen hgv hw h
      simp only [dfsGo] at h
      cases hrec : dfsGo g params fuel (.inr (node, g.getD node []))
          ⟨st.visited.set node true, st.rec_stack.set node true⟩ with
      | none => rw [hrec] at h; exact Option.noConfusion h
      | some r =>
        cases r with
        | error m => rw [hrec] at h; simp at h
        | ok stm =>
          rw [hrec] at h
          have he := some_ok_inj h
          have hnvis : node < st.visited.length := by rw [hlen.1]; exact hn
          have hnrec : node < st.rec_stack.length := by rw [hlen.2]; exact hn
          have hlen1 : StLen ⟨st.visited.set node true, st.rec_stack.set node true⟩ n :=
            ⟨by simpa [List.length_set] using hlen.1, by simpa [List.length_set] using hlen.2⟩
          have hgv1 : GrayVis ⟨st.visited.set node true, st.rec_stack.set node true⟩ := by
            intro u hu
            by_cases hune : u = node
            · subst hune
              exact getD_set_self false st.visited u true hnvis
            · have hu2 : st.rec_stack.getD u false = true := by
                rwa [getD_set_ne false st.rec_stack node u true
                  (fun hh => hune hh.symm)] at hu
              exact getD_set_true_mono (hgv u hu2)
          have hw1 : Wst g ⟨st.visited.set node true, st.rec_stack.set node true⟩ o := by
            refine ⟨hw.1, fun u => ?_, hw.2.2⟩
            by_cases hune : u = node
            · subst hune
              constructor
              · intro hb
                have := hb.2
                rw [show (DfsState.mk (st.visited.set u true) (st.rec_stack.set u true)).rec_stack
                    = st.rec_stack.set u true from rfl,
                  getD_set_self false st.rec_stack u true hnrec] at this
                exact absurd this (by simp)
              · intro hmem
                have hb := (hw.2.1 u).mpr hmem
                have hb1 : st.visited.getD u false = true := hb.1
                rw [hv] at hb1
                exact absurd hb1 (by simp)
            · have e1 : (st.visited.set node true).getD u false = st.visited.getD u false :=
                getD_set_ne false st.visited node u true (fun hh => hune hh.symm)
              have e2 : (st.rec_stack.set node true).getD u false = st.rec_stack.getD u false :=
                getD_set_ne false st.rec_stack node u true (fun hh => hune hh.symm)
              rw [blackAt_iff_of_same e1 e2]
              exact hw.2.1 u
          obtain ⟨o2x, hW2, ⟨tx, htx⟩, hmemadj⟩ := ihB node (g.getD node [])
            ⟨st.visited.set node true, st.rec_stack.set node true⟩ stm o
            (fun nb hnb => hnb) hlen1 hgv1 hw1 hrec
          obtain ⟨m1, mlv, mlr, _⟩ := dfs_mono g params fuel (.inr (node, g.getD node []))
            ⟨st.visited.set node true, st.rec_stack.set node true⟩ stm hrec
          obtain ⟨_, hreq⟩ := (dfs_grayEq g params n hE fuel).2 node (g.getD node [])
            ⟨st.visited.set node true, st.rec_stack.set node true⟩ stm
            (fun nb hnb => hnb) hlen1 hgv1 hrec
          have hgraynode : stm.rec_stack.getD node false = true := by
            rw [hreq node]
            exact getD_set_self false st.rec_stack node true hnrec
          have hnotblack : node ∉ o2x := by
            intro hmem
            have hb := (hW2.2.1 node).mpr hmem
            have hb2 : stm.rec_stack.getD node false = false := hb.2
            rw [hgraynode] at hb2
            exact absurd hb2 (by simp)
          have hmrec : node < stm.rec_stack.length := by
            rw [mlr]
            simpa [List.length_set] using hnrec
          have hvisnode : stm.visited.getD node false = true :=
            m1 node (getD_set_self false st.visited node true hnvis)
          subst he
          refine ⟨o2x ++ [node], ⟨?_, fun u => ?_, ?_⟩, ⟨tx ++ [node], by rw [htx]; simp⟩,
            by simp⟩
          · rw [List.nodup_append]
            refine ⟨hW2.1, List.nodup_singleton node, fun a ha hb => ?_⟩
            simp only [List.mem_singleton] at hb
            exact hnotblack (hb ▸ ha)
          · by_cases hune : u = node
            · subst hune
              constructor
              · intro _; simp
              · intro _
                refine ⟨hvisnode, ?_⟩
                exact getD_set_self false stm.rec_stack u false hmrec
            · have e1 : (DfsState.mk stm.visited (stm.rec_stack.set node false)).visited.getD u false
                  = stm.visited.getD u false := rfl
              have e2 : (stm.rec_stack.set node false).getD u false
                  = stm.rec_stack.getD u false :=
                getD_set_ne false stm.rec_stack node u false (fun hh => hune hh.symm)
              rw [blackAt_iff_of_same e1 e2, hW2.2.1 u]
              constructor
              · intro hm; exact List.mem_append.mpr (Or.inl hm)
              · intro hm
                rcases List.mem_append.mp hm with hm2 | hm2
                · exact hm2
                · exact absurd (by simpa using hm2) hune
          · exact ordOk_append hW2.2.2 (fun v hv2 => hmemadj v hv2)
    · intro node l st st2 o hadj hlen hgv hw h
      match l with
      | [] =>
        simp only [dfsGo] at h
        have he := some_ok_inj h
        subst he
        exact ⟨o, hw, ⟨[], by simp⟩, by simp⟩
      | nb :: rest =>
        simp only [dfsGo] at h
        by_cases hv : st.visited.getD nb false = false
        · rw [if_pos hv] at h
          cases hrec : dfsGo g params fuel (.inl nb) st with
          | none => rw [hrec] at h; exact Option.noConfusion h
          | some r =>
            cases r with
            | error m => rw [hrec] at h; simp at h
            | ok stm =>
              rw [hrec] at h
              have hnb : nb < n := hE node nb (hadj nb (by simp))
              obtain ⟨ox, hWx, ⟨t1, ht1⟩, hnbmem⟩ := ihA nb st stm o hnb hv hlen hgv hw hrec
              obtain ⟨_, hlv, hlr, _⟩ := dfs_mono g params fuel (.inl nb) st stm hrec
              have hlenm : StLen stm n :=
                ⟨by rw [hlv]; exact hlen.1, by rw [hlr]; exact hlen.2⟩
              obtain ⟨hgA, _⟩ := (dfs_grayEq g params n hE fuel).1 nb st stm hnb hlen hgv hrec
              obtain ⟨o2, hW2, ⟨t2, ht2⟩, hrestmem⟩ := ihB node rest stm st2 ox
                (fun x hx => hadj x (by simp [hx])) hlenm hgA hWx h
              refine ⟨o2, hW2, ⟨t1 ++ t2, by rw [ht2, ht1]; simp⟩, ?_⟩
              intro x hx
              rcases List.mem_cons.mp hx with hx2 | hx2
              · subst hx2
                rw [ht2]
                exact List.mem_append.mpr (Or.inl hnbmem)
              · exact hrestmem x hx2
        · rw [if_neg hv] at h
          by_cases hg : st.rec_stack.getD nb false = true
          · rw [if_pos hg] at h
            simp at h
          · rw [if_neg hg] at h
            have hblack : blackAt st nb := by
              constructor
              · cases hvb : st.visited.getD nb false
                · exact absurd hvb hv
                · rfl
              · cases hgb : st.rec_stack.getD nb false
                · rfl
                · exact absurd hgb hg
            have hnbo : nb ∈ o := (hw.2.1 nb).mp hblack
            obtain ⟨o2, hW2, ⟨t2, ht2⟩, hrestmem⟩ := ihB node rest st st2 o
              (fun x hx => hadj x (by simp [hx])) hlen hgv hw h
            refine ⟨o2, hW2, ⟨t2, ht2⟩, ?_⟩
            intro x hx
            rcases List.mem_cons.mp hx with hx2 | hx2
            · subst hx2
              rw [ht2]
              exact List.mem_append.mpr (Or.inl hnbo)
            · exact hrestmem x hx2

theorem getD_replicate {α : Type} (d : α) :
    ∀ (n u : Nat), (List.replicate n d).getD u d = d := by
  intro n
  induction n with
  | zero => intro u; simp [List.getD]
  | succ n ih =>
    intro u
    cases u with
    | zero => rfl
    | succ u => simpa [List.replicate, List.getD] using ih u

theorem pushAt_length (g : List (List Nat)) (i v : Nat) :
    (pushAt g i v).length = g.length := by
  unfold pushAt
  simp

theorem foldl_pushAt_length :
    ∀ (srcs : List Nat) (g : List (List Nat)) (t : Nat),
      (srcs.foldl (fun g2 s => pushAt g2 s t) g).length = g.length := by
  intro srcs
  induction srcs with
  | nil => intro g t; rfl
  | cons s rest ih =>
    intro g t
    rw [List.foldl_cons, ih, pushAt_length]

theorem addConstraintEdges_length (params : List Parameter) (g : List (List Nat))
    (c : ParameterConstraint) : (addConstraintEdges params g c).length = g.length := by
  unfold addConstraintEdges
  cases find_target_index c params with
  | none => rfl
  | some t => exact foldl_pushAt_length _ g t

theorem foldl_addCE_length (params : List Parameter) :
    ∀ (cs : List ParameterConstraint) (g : List (List Nat)),
      (cs.foldl (addConstraintEdges params) g).length = g.length := by
  intro cs
  induction cs with
  | nil => intro g; rfl
  | cons c rest ih =>
    intro g
    rw [List.foldl_cons, ih, addConstraintEdges_length]

theorem buildGraph_length (constraints : List ParameterConstraint)
    (params : List Parameter) :
    (buildGraph constraints params).length = params.length := by
  unfold buildGraph
  rw [foldl_addCE_length]
  simp

theorem edge_pushAt {g : List (List Nat)} {i t u v : Nat}
    (h : Edge (pushAt g i t) u v) : Edge g u v ∨ v = t := by
  unfold Edge pushAt at h
  unfold Edge
  by_cases hiu : i = u
  · subst hiu
    by_cases hl : i < g.length
    · rw [getD_set_self ([] : List Nat) g i _ hl] at h
      rcases List.mem_append.mp h with h2 | h2
      · exact Or.inl h2
      · exact Or.inr (by simpa using h2)
    · rw [List.set_eq_of_length_le (le_of_not_lt hl)] at h
      exact Or.inl h
  · rw [getD_set_ne ([] : List Nat) g i u _ hiu] at h
    exact Or.inl h

theorem foldl_pushAt_below :
    ∀ (srcs : List Nat) (g : List (List Nat)) (t n : Nat),
      edgesBelow g n → t < n →
      edgesBelow (srcs.foldl (fun g2 s => pushAt g2 s t) g) n := by
  intro srcs
  induction srcs with
  | nil => intro g t n hg _; exact hg
  | cons s rest ih =>
    intro g t n hg ht
    rw [List.foldl_cons]
    refine ih (pushAt g s t) t n ?_ ht
    intro u v he
    rcases edge_pushAt he with h2 | h2
    · exact hg u v h2
    · subst h2; exact ht

theorem addConstraintEdges_below (params : List Parameter) (g : List (List Nat))
    (c : ParameterConstraint) (hg : edgesBelow g params.length) :
    edgesBelow (addConstraintEdges params g c) params.length := by
  unfold addConstraintEdges
  cases hti : find_target_index c params with
  | none => exact hg
  | some t =>
    have ht : t < params.length := (position_spec _ params t hti).1
    exact foldl_pushAt_below _ g t params.length hg ht

theorem buildGraph_below (constraints : List ParameterConstraint)
    (params : List Parameter) :
    edgesBelow (buildGraph constraints params) params.length := by
  unfold buildGraph
  have base : edgesBelow (List.replicate params.length ([] : List Nat)) params.length := by
    intro u v he
    unfold Edge at he
    rw [show (List.replicate params.length ([] : List Nat)).getD u [] = [] from
      getD_replicate ([] : List Nat) params.length u] at he
    simp at he
  generalize List.replicate params.length ([] : List Nat) = g0 at base ⊢
  induction constraints generalizing g0 with
  | nil => exact base
  | cons c rest ih =>
    rw [List.foldl_cons]
    exact ih _ (addConstraintEdges_below params g0 c base)

theorem edge_src_lt {g : List (List Nat)} {u v : Nat} (h : Edge g u v) :
    u < g.length := by
  by_contra hc
  unfold Edge at h
  rw [getD_default_of_le ([] : List Nat) g u (le_of_not_lt hc)] at h
  simp at h

theorem detectLoop_ok (g : List (List Nat)) (params : List Parameter) (n : Nat)
    (hE : edgesBelow g n) :
    ∀ (idx : List Nat) (st : DfsState) (o : List Nat) (res : DfsState),
      (∀ i ∈ idx, i < n) → StLen st n → GrayVis st →
      (∀ u, st.rec_stack.getD u false = false) → Wst g st o →
      detectLoop g params (dfsFuel g n) idx st = .ok res →
      ∃ o2, Wst g res o2 ∧ (∃ t2, o2 = o ++ t2) ∧ ∀ i ∈ idx, i ∈ o2 := by
  intro idx
  induction idx with
  | nil =>
    intro st o res _ _ _ _ hw h
    have he : st = res := by
      have h2 : (Except.ok st : Except String DfsState) = .ok res := h
      injection h2
    subst he
    exact ⟨o, hw, ⟨[], by simp⟩, by simp⟩
  | cons i rest ih =>
    intro st o res hidx hlen hgv hrec0 hw h
    have hi : i < n := hidx i (by simp)
    simp only [detectLoop] at h
    by_cases hv : st.visited.getD i false = false
    · rw [if_pos hv] at h
      cases hrec : dfsGo g params (dfsFuel g n) (.inl i) st with
      | none => rw [hrec] at h; simp at h
      | some r =>
        cases r with
        | error m => rw [hrec] at h; simp at h
        | ok stm =>
          rw [hrec] at h
          obtain ⟨ox, hWx, ⟨t1, ht1⟩, himem⟩ :=
            (dfs_topo g params n hE (dfsFuel g n)).1 i st stm o hi hv hlen hgv hw hrec
          obtain ⟨hgv2, hrdesc⟩ :=
            (dfs_grayEq g params n hE (dfsFuel g n)).1 i st stm hi hlen hgv hrec
          obtain ⟨_, hlv, hlr, _⟩ := dfs_mono g params (dfsFuel g n) (.inl i) st stm hrec
          have hlenm : StLen stm n :=
            ⟨by rw [hlv]; exact hlen.1, by rw [hlr]; exact hlen.2⟩
          have hrec2 : ∀ u, stm.rec_stack.getD u false = false := by
            intro u
            rw [hrdesc u]
            by_cases hu : u = i
            · rw [if_pos hu]
            · rw [if_neg hu]; exact hrec0 u
          obtain ⟨o2, hW2, ⟨t2, ht2⟩, hrmem⟩ := ih stm ox res
            (fun j hj => hidx j (by simp [hj])) hlenm hgv2 hrec2 hWx h
          refine ⟨o2, hW2, ⟨t1 ++ t2, by rw [ht2, ht1]; simp⟩, ?_⟩
          intro j hj
          rcases List.mem_cons.mp hj with hj2 | hj2
          · subst hj2
            rw [ht2]
            exact List.mem_append.mpr (Or.inl himem)
          · exact hrmem j hj2
    · rw [if_neg hv] at h
      have hblack : blackAt st i := by
        constructor
        · cases hvb : st.visited.getD i false
          · exact absurd hvb hv
          · rfl
        · exact hrec0 i
      have hio : i ∈ o := (hw.2.1 i).mp hblack
      obtain ⟨o2, hW2, ⟨t2, ht2⟩, hrmem⟩ := ih st o res
        (fun j hj => hidx j (by simp [hj])) hlen hgv hrec0 hw h
      refine ⟨o2, hW2, ⟨t2, ht2⟩, ?_⟩
      intro j hj
      rcases List.mem_cons.mp hj with hj2 | hj2
      · subst hj2
        rw [ht2]
        exact List.mem_append.mpr (Or.inl hio)
      · exact hrmem j hj2

theorem detectLoop_err (g : List (List Nat)) (params : List Parameter) (n : Nat)
    (hE : edgesBelow g n) :
    ∀ (idx : List Nat) (st : DfsState) (m : String),
      (∀ i ∈ idx, i < n) → StLen st n → GrayVis st →
      (∀ u, st.rec_stack.getD u false = false) →
      detectLoop g params (dfsFuel g n) idx st = .error m →
      ∃ x, onCycle g x ∧ m = cycleMsg ((params.getD x defaultParameter).name) := by
  intro idx
  induction idx with
  | nil =>
    intro st m _ _ _ _ h
    simp [detectLoop] at h
  | cons i rest ih =>
    intro st m hidx hlen hgv hrec0 h
    have hi : i < n := hidx i (by simp)
    simp only [detectLoop] at h
    by_cases hv : st.visited.getD i false = false
    · rw [if_pos hv] at h
      cases hrec : dfsGo g params (dfsFuel g n) (.inl i) st with
      | none =>
        exfalso
        have hcf : countFalse st.visited ≤ n := by
          have := countFalse_le_length st.visited
          rw [hlen.1] at this
          exact this
        have hfuel : countFalse st.visited * dfsK g + 1 ≤ dfsFuel g n := by
          unfold dfsFuel
          have := Nat.mul_le_mul_right (dfsK g) hcf
          omega
        exact (dfs_fuelSuff g params n (dfsK g) hE (dfsK_bound g) (dfsFuel g n)).1
          i st hi hv hlen hfuel hrec
      | some r =>
        cases r with
        | error m2 =>
          rw [hrec] at h
          have hm : m2 = m := by
            have h2 : (Except.error m2 : Except String DfsState) = .error m := h
            injection h2
          subst hm
          have hgi : GrayInv g st i := by
            intro u hu
            rw [hrec0 u] at hu
            exact absurd hu (by simp)
          exact (dfs_err g params n hE (dfsFuel g n)).1 i st m2 hi hlen hgv hgi hrec
        | ok stm =>
          rw [hrec] at h
          obtain ⟨hgv2, hrdesc⟩ :=
            (dfs_grayEq g params n hE (dfsFuel g n)).1 i st stm hi hlen hgv hrec
          obtain ⟨_, hlv, hlr, _⟩ := dfs_mono g params (dfsFuel g n) (.inl i) st stm hrec
          have hlenm : StLen stm n :=
            ⟨by rw [hlv]; exact hlen.1, by rw [hlr]; exact hlen.2⟩
          have hrec2 : ∀ u, stm.rec_stack.getD u false = false := by
            intro u
            rw [hrdesc u]
            by_cases hu : u = i
            · rw [if_pos hu]
            · rw [if_neg hu]; exact hrec0 u
          exact ih stm m (fun j hj => hidx j (by simp [hj])) hlenm hgv2 hrec2 h
    · rw [if_neg hv] at h
      exact ih st m (fun j hj => hidx j (by simp [hj])) hlen hgv hrec0 h

theorem initialState_facts (n : Nat) :
    StLen ⟨List.replicate n false, List.replicate n false⟩ n
    ∧ GrayVis ⟨List.replicate n false, List.replicate n false⟩
    ∧ (∀ u, (DfsState.mk (List.replicate n false) (List.replicate n false)).rec_stack.getD
        u false = false)
    ∧ ∀ (g : List (List Nat)), Wst g ⟨List.replicate n false, List.replicate n false⟩ [] := by
  refine ⟨⟨by simp, by simp⟩, ?_, ?_, ?_⟩
  · intro u hu
    rw [show (DfsState.mk (List.replicate n false) (List.replicate n false)).rec_stack
        = List.replicate n false from rfl, getD_replicate] at hu
    exact absurd hu (by simp)
  · intro u
    exact getD_replicate false n u
  · intro g
    refine ⟨List.nodup_nil, fun u => ?_, ?_⟩
    · constructor
      · intro hb
        have hb1 : (List.replicate n false).getD u false = true := hb.1
        rw [getD_replicate] at hb1
        exact absurd hb1 (by simp)
      · intro hm
        exact absurd hm (List.not_mem_nil u)
    · intro o1 u o2 hsplit
      exact absurd hsplit (by cases o1 <;> simp)

theorem detect_cycles_ok_acyclic (constraints : List ParameterConstraint)
    (params : List Parameter) (h : detect_cycles constraints params = .ok ()) :
    ¬ hasCycle (buildGraph constraints params) := by
  simp only [detect_cycles] at h
  cases hdl : detectLoop (buildGraph constraints params) params
      (dfsFuel (buildGraph constraints params) params.length)
      (List.range params.length)
      ⟨List.replicate params.length false, List.replicate params.length false⟩ with
  | error m => rw [hdl] at h; simp at h
  | ok st =>
    obtain ⟨hlen0, hgv0, hrec0, hw0⟩ := initialState_facts params.length
    obtain ⟨o2, hW2, _, hcov⟩ := detectLoop_ok (buildGraph constraints params) params
      params.length (buildGraph_below constraints params)
      (List.range params.length) _ [] st
      (fun i hi => List.mem_range.mp hi) hlen0 hgv0 hrec0
      (hw0 (buildGraph constraints params)) hdl
    refine no_cycle_of_ordOk hW2.2.2 hW2.1 ?_
    intro x hx
    obtain ⟨y, he, _⟩ := hx
    have hxl : x < (buildGraph constraints params).length := edge_src_lt he
    rw [buildGraph_length] at hxl
    exact hcov x (List.mem_range.mpr hxl)

theorem detect_cycles_err_onCycle (constraints : List ParameterConstraint)
    (params : List Parameter) (m : String)
    (h : detect_cycles constraints params = .error m) :
    ∃ x, onCycle (buildGraph constraints params) x
      ∧ m = cycleMsg ((params.getD x defaultParameter).name) := by
  simp only [detect_cycles] at h
  cases hdl : detectLoop (buildGraph constraints params) params
      (dfsFuel (buildGraph constraints params) params.length)
      (List.range params.length)
      ⟨List.replicate params.length false, List.replicate params.length false⟩ with
  | ok st => rw [hdl] at h; simp at h
  | error m2 =>
    rw [hdl] at h
    have hm : m2 = m := by
      have h2 : (Except.error m2 : Except String Unit) = .error m := h
      injection h2
    subst hm
    obtain ⟨hlen0, hgv0, hrec0, _⟩ := initialState_facts params.length
    exact detectLoop_err (buildGraph constraints params) params params.length
      (buildGraph_below constraints params) (List.range params.length) _ m2
      (fun i hi => List.mem_range.mp hi) hlen0 hgv0 hrec0 hdl

/-- C6: if the dependency graph built by `detect_cycles` (an edge
`source → target` for every resolved source parameter of every constraint)
contains a directed cycle, `validate_constraints` returns an error whose
message names a parameter lying on a cycle; if the graph is acyclic and all
constraint expressions compile, `validate_constraints` returns the compiled
constraints. -/
theorem C6_cycle_detection_validate :
    (∀ (constraints : List ParameterConstraint) (params : List Parameter),
        hasCycle (buildGraph constraints params) →
        ∃ x, onCycle (buildGraph constraints params) x ∧
          validate_constraints constraints params
            = .error (cycleMsg ((params.getD x defaultParameter).name)))
    ∧ (∀ (constraints : List ParameterConstraint) (params : List Parameter)
        (out : List ParameterConstraint),
        ¬ hasCycle (buildGraph constraints params) →
        compileAllConstraints (params.map Parameter.name) constraints = .ok out →
        validate_constraints constraints params = .ok out) := by
  constructor
  · intro constraints params hcyc
    cases hdc : detect_cycles constraints params with
    | ok u =>
      cases u
      exact absurd hcyc (detect_cycles_ok_acyclic constraints params hdc)
    | error m =>
      obtain ⟨x, honc, hm⟩ := detect_cycles_err_onCycle constraints params m hdc
      refine ⟨x, honc, ?_⟩
      unfold validate_constraints
      rw [← hm]
      simp [hdc, Bind.bind, Except.bind]
  · intro constraints params out hacyc hcomp
    cases hdc : detect_cycles constraints params with
    | error m =>
      obtain ⟨x, honc, _⟩ := detect_cycles_err_onCycle constraints params m hdc
      exact absurd ⟨x, honc⟩ hacyc
    | ok u =>
      cases u
      unfold validate_constraints
      simp [hdc, hcomp, Bind.bind, Except.bind]

/-- C6 witness: the acyclic one-constraint configuration `y == x` over
parameters `x`, `y` validates and compiles to a single `loadParam`. -/
theorem C6_cycle_detection_validate_witness :
    validate_constraints
      [⟨RelationshipType.equals, "", ['x'], ⟨"y", 0, 0, 1⟩, [⟨"x", 0, 0, 1⟩], none⟩]
      [⟨"x", 0, 0, 1⟩, ⟨"y", 0, 0, 1⟩]
      = .ok [⟨RelationshipType.equals, "", ['x'], ⟨"y", 0, 0, 1⟩, [⟨"x", 0, 0, 1⟩],
          some ⟨[OpCode.loadParam 0], [], 1⟩⟩] :=
  C6_cycle_detection_validate.2
    [⟨RelationshipType.equals, "", ['x'], ⟨"y", 0, 0, 1⟩, [⟨"x", 0, 0, 1⟩], none⟩]
    [⟨"x", 0, 0, 1⟩, ⟨"y", 0, 0, 1⟩]
    [⟨RelationshipType.equals, "", ['x'], ⟨"y", 0, 0, 1⟩, [⟨"x", 0, 0, 1⟩],
        some ⟨[OpCode.loadParam 0], [], 1⟩⟩]
    (by
      have hg : buildGraph
          [⟨RelationshipType.equals, "", ['x'], ⟨"y", 0, 0, 1⟩, [⟨"x", 0, 0, 1⟩], none⟩]
          [⟨"x", 0, 0, 1⟩, ⟨"y", 0, 0, 1⟩] = [[1], []] := by decide
      rw [hg]
      rintro ⟨x, y, he, hp⟩
      match x with
      | 0 =>
        have hy : y = 1 := by
          have he2 : y ∈ [1] := he
          simpa using he2
        subst hy
        cases hp with
        | step e _ =>
          have he3 : _ ∈ ([] : List Nat) := e
          simp at he3
      | 1 =>
        have he2 : y ∈ ([] : List Nat) := he
        simp at he2
      | (n + 2) =>
        have he2 : y ∈ ([[1], []].getD (n + 2) []) := he
        simp [List.getD] at he2)
    (by decide)

theorem costClampAdjacent_nil (bounds : List (ℚ × ℚ)) :
    costClampAdjacent bounds [] := by
  intro j v hj
  simp at hj

theorem costClampAdjacent_pair (bounds : List (ℚ × ℚ)) (x out : List ℚ) :
    costClampAdjacent bounds
      [SolverEvent.applyEv x out, SolverEvent.costEv (clampVec bounds out)] := by
  intro j v hj
  match j with
  | 0 => simp at hj
  | 1 =>
    refine ⟨0, x, out, rfl, rfl, ?_⟩
    have h2 : some (SolverEvent.costEv (clampVec bounds out))
        = some (SolverEvent.costEv v) := hj
    injection h2 with h3
    injection h3 with h4
    exact h4.symm
  | n + 2 => simp at hj

theorem costClampAdjacent_append {bounds : List (ℚ × ℚ)} {t1 t2 : List SolverEvent}
    (h1 : costClampAdjacent bounds t1) (h2 : costClampAdjacent bounds t2) :
    costClampAdjacent bounds (t1 ++ t2) := by
  intro j v hj
  by_cases hlt : j < t1.length
  · rw [List.get?_append hlt] at hj
    obtain ⟨jp, inp, out, hje, hjp, hv⟩ := h1 j v hj
    refine ⟨jp, inp, out, hje, ?_, hv⟩
    rw [List.get?_append (by omega)]
    exact hjp
  · rw [List.get?_append_right (by omega)] at hj
    obtain ⟨jp, inp, out, hje, hjp, hv⟩ := h2 (j - t1.length) v hj
    refine ⟨jp + t1.length, inp, out, by omega, ?_, hv⟩
    rw [List.get?_append_right (by omega)]
    rw [show jp + t1.length - t1.length = jp from by omega]
    exact hjp

theorem psoEvalGo_adj (costF : List ℚ → ℚ) (applyF : List ℚ → List ℚ)
    (bounds : List (ℚ × ℚ)) :
    ∀ (xs : List (List ℚ)) (p : Nat) (pbp : List (List ℚ)) (pbc : List (Option ℚ))
      (gbi : Nat) (gbc : Option ℚ),
      costClampAdjacent bounds (psoEvalGo costF applyF bounds p xs pbp pbc gbi gbc).evs := by
  intro xs
  induction xs with
  | nil =>
    intro p pbp pbc gbi gbc
    exact costClampAdjacent_nil bounds
  | cons x rest ih =>
    intro p pbp pbc gbi gbc
    show costClampAdjacent bounds
      ([SolverEvent.applyEv x (applyF x), SolverEvent.costEv (clampVec bounds (applyF x))]
        ++ _)
    exact costClampAdjacent_append (costClampAdjacent_pair bounds x (applyF x)) (ih _ _ _ _ _)

theorem psoLoop_adj (costF : List ℚ → ℚ) (applyF : List ℚ → List ℚ)
    (bounds : List (ℚ × ℚ)) (stopF : Nat → Bool) (rngF : Nat → ℚ) (cfg : PsoCfg) :
    ∀ (k iter : Nat) (xs vs pbp : List (List ℚ)) (pbc : List (Option ℚ))
      (gbi : Nat) (gbc : Option ℚ) (stag ctr : Nat),
      costClampAdjacent bounds
        (psoLoop costF applyF bounds stopF rngF cfg k iter xs vs pbp pbc gbi gbc stag ctr) := by
  intro k
  induction k with
  | zero =>
    intro iter xs vs pbp pbc gbi gbc stag ctr
    exact costClampAdjacent_nil bounds
  | succ k ih =>
    intro iter xs vs pbp pbc gbi gbc stag ctr
    simp only [psoLoop]
    split
    · exact psoEvalGo_adj costF applyF bounds xs 0 pbp pbc gbi gbc
    · split
      · exact psoEvalGo_adj costF applyF bounds xs 0 pbp pbc gbi gbc
      · split
        · exact psoEvalGo_adj costF applyF bounds xs 0 pbp pbc gbi gbc
        · exact costClampAdjacent_append
            (psoEvalGo_adj costF applyF bounds xs 0 pbp pbc gbi gbc)
            (ih _ _ _ _ _ _ _ _ _)

theorem costApplyAdjacent_nil : costApplyAdjacent [] := by
  intro j v hj
  simp at hj

theorem costApplyAdjacent_pair (x out : List ℚ) :
    costApplyAdjacent [SolverEvent.applyEv x out, SolverEvent.costEv out] := by
  intro j v hj
  match j with
  | 0 => simp at hj
  | 1 =>
    have h2 : some (SolverEvent.costEv out) = some (SolverEvent.costEv v) := hj
    injection h2 with h3
    injection h3 with h4
    refine ⟨0, x, rfl, ?_⟩
    rw [← h4]
    rfl
  | n + 2 => simp at hj

theorem costApplyAdjacent_append {t1 t2 : List SolverEvent}
    (h1 : costApplyAdjacent t1) (h2 : costApplyAdjacent t2) :
    costApplyAdjacent (t1 ++ t2) := by
  intro j v hj
  by_cases hlt : j < t1.length
  · rw [List.get?_append hlt] at hj
    obtain ⟨jp, inp, hje, hjp⟩ := h1 j v hj
    refine ⟨jp, inp, hje, ?_⟩
    rw [List.get?_append (by omega)]
    exact hjp
  · rw [List.get?_append_right (by omega)] at hj
    obtain ⟨jp, inp, hje, hjp⟩ := h2 (j - t1.length) v hj
    refine ⟨jp + t1.length, inp, by omega, ?_⟩
    rw [List.get?_append_right (by omega)]
    rw [show jp + t1.length - t1.length = jp from by omega]
    exact hjp

theorem cmaEvalGo_adj (costF : List ℚ → ℚ) (applyF : List ℚ → List ℚ)
    (bounds : List (ℚ × ℚ)) (sqrtF : ℚ → ℚ) (rngF : Nat → ℚ) (n : Nat)
    (mean : List ℚ) (sigma : ℚ) (C : List (List ℚ)) :
    ∀ (k ctr : Nat) (bc : Option ℚ) (bp : List ℚ),
      costApplyAdjacent
        (cmaEvalGo costF applyF bounds sqrtF rngF n mean sigma C k ctr bc bp).evs := by
  intro k
  induction k with
  | zero =>
    intro ctr bc bp
    exact costApplyAdjacent_nil
  | succ k ih =>
    intro ctr bc bp
    show costApplyAdjacent
      ([SolverEvent.applyEv _ (applyF _), SolverEvent.costEv (applyF _)] ++ _)
    exact costApplyAdjacent_append (costApplyAdjacent_pair _ _) (ih _ _ _)

theorem cmaLoop_adj (costF : List ℚ → ℚ) (applyF : List ℚ → List ℚ)
    (bounds : List (ℚ × ℚ)) (stopF : Nat → Bool) (rngF : Nat → ℚ)
    (sqrtF expF : ℚ → ℚ) (precision : ℚ) (n lambda mu : Nat)
    (weights : List ℚ) (cc cs c1 cmu damps : ℚ) :
    ∀ (k iter : Nat) (mean : List ℚ) (sigma : ℚ) (C : List (List ℚ))
      (ps pc : List ℚ) (bc : Option ℚ) (bp : List ℚ) (ctr : Nat),
      costApplyAdjacent
        (cmaLoop costF applyF bounds stopF rngF sqrtF expF precision n lambda mu
          weights cc cs c1 cmu damps k iter mean sigma C ps pc bc bp ctr) := by
  intro k
  induction k with
  | zero =>
    intro iter mean sigma C ps pc bc bp ctr
    exact costApplyAdjacent_nil
  | succ k ih =>
    intro iter mean sigma C ps pc bc bp ctr
    simp only [cmaLoop]
    split
    · exact cmaEvalGo_adj costF applyF bounds sqrtF rngF n mean sigma C lambda ctr bc bp
    · split
      · exact cmaEvalGo_adj costF applyF bounds sqrtF rngF n mean sigma C lambda ctr bc bp
      · exact costApplyAdjacent_append
          (cmaEvalGo_adj costF applyF bounds sqrtF rngF n mean sigma C lambda ctr bc bp)
          (ih _ _ _ _ _ _ _ _ _)

/-- C2 (amended): in `ParticleOptimizer::solve`, every `problem.cost`
evaluation is immediately preceded by a `problem.apply_constraints` call on
the same particle, and the costed vector is exactly the bounds clamp of the
`apply_constraints` output; in `CMAESOptimizer::solve`, every `problem.cost`
evaluation is immediately preceded by a `problem.apply_constraints` call
whose output is exactly the costed vector — for every configuration, problem
oracle, random stream and callback.  The analogous statement fails for
`NewtonOptimizer`: its central-difference gradient probes and line-search
trial points reach `cost` without passing through `apply_constraints` (see
the counterexample). -/
theorem C2_cost_preceded_by_constraints :
    (∀ (cfg : PsoCfg) (costF : List ℚ → ℚ) (applyF : List ℚ → List ℚ)
      (bounds : List (ℚ × ℚ)) (stopF : Nat → Bool) (rngF : Nat → ℚ)
      (initial : List ℚ),
      costClampAdjacent bounds (psoTrace cfg costF applyF bounds stopF rngF initial))
    ∧ (∀ (cfg : CmaCfg) (costF : List ℚ → ℚ) (applyF : List ℚ → List ℚ)
      (bounds : List (ℚ × ℚ)) (stopF : Nat → Bool) (rngF : Nat → ℚ)
      (sqrtF lnF expF : ℚ → ℚ) (initial : List ℚ),
      costApplyAdjacent
        (cmaTrace cfg costF applyF bounds stopF rngF sqrtF lnF expF initial)) := by
  constructor
  · intro cfg costF applyF bounds stopF rngF initial
    simp only [psoTrace]
    exact psoLoop_adj costF applyF bounds stopF rngF cfg _ _ _ _ _ _ _ _ _ _
  · intro cfg costF applyF bounds stopF rngF sqrtF lnF expF initial
    simp only [cmaTrace]
    exact cmaLoop_adj costF applyF bounds stopF rngF sqrtF expF cfg.precision _ _ _
      _ _ _ _ _ _ _ _ _ _ _ _ _ _ _ _

/-- C2 counterexample: a one-iteration run of `NewtonOptimizer::solve`
(`new(1, 1/100)`, constant cost `1`, identity constraints, bounds `[(0, 1)]`,
initial `[1/2]`) evaluates `cost` on the gradient probe `[1/2 + 1e-6]`, a
vector that was never passed through `apply_constraints`: the only
`apply_constraints` output in the trace is `[1/2]`. -/
theorem C2_cost_preceded_by_constraints_cex :
    newtonTrace ⟨1, 1 / 100, 1 / 10, 1 / 10 ^ 6, 1, 1 / 10 ^ 4, 1 / 2, 6 / 5⟩
        (fun _ => 1) (fun v => v) [(0, 1)] (fun _ => false) [1 / 2]
      = [SolverEvent.applyEv [1 / 2] [1 / 2], SolverEvent.costEv [1 / 2],
         SolverEvent.costEv [1 / 2 + 1 / 10 ^ 6], SolverEvent.costEv [1 / 2 - 1 / 10 ^ 6],
         SolverEvent.costEv [1 / 2]]
    ∧ ¬ costConstrained
        (newtonTrace ⟨1, 1 / 100, 1 / 10, 1 / 10 ^ 6, 1, 1 / 10 ^ 4, 1 / 2, 6 / 5⟩
          (fun _ => 1) (fun v => v) [(0, 1)] (fun _ => false) [1 / 2]) := by
  have htr : newtonTrace ⟨1, 1 / 100, 1 / 10, 1 / 10 ^ 6, 1, 1 / 10 ^ 4, 1 / 2, 6 / 5⟩
        (fun _ => 1) (fun v => v) [(0, 1)] (fun _ => false) [1 / 2]
      = [SolverEvent.applyEv [1 / 2] [1 / 2], SolverEvent.costEv [1 / 2],
         SolverEvent.costEv [1 / 2 + 1 / 10 ^ 6], SolverEvent.costEv [1 / 2 - 1 / 10 ^ 6],
         SolverEvent.costEv [1 / 2]] := by
    norm_num [newtonTrace, newtonLoop, compute_gradient, newtonGradientGo, line_search,
      line_searchGo, clampVec, rustClamp, List.range, List.range.loop]
  refine ⟨htr, ?_⟩
  rw [htr]
  intro h
  obtain ⟨i, inp, hi, happ⟩ := h 2 [1 / 2 + 1 / 10 ^ 6] rfl
  match i with
  | 0 =>
    have h2 : some (SolverEvent.applyEv [(1 : ℚ) / 2] [1 / 2])
        = some (SolverEvent.applyEv inp [1 / 2 + 1 / 10 ^ 6]) := happ
    injection h2 with h3
    injection h3 with h4 h5
    have : (1 : ℚ) / 2 = 1 / 2 + 1 / 10 ^ 6 := by
      have h6 := congrArg (fun l => l.getD 0 0) h5
      simpa using h6
    norm_num at this
  | 1 =>
    have h2 : some (SolverEvent.costEv [(1 : ℚ) / 2])
        = some (SolverEvent.applyEv inp [1 / 2 + 1 / 10 ^ 6]) := happ
    simp at h2
  | n + 2 => omega

end UWASIC
